import Mathlib

/-!
Verification of the crawl orchestration core of `main.py` (crawl4ai-simple-cli).

The development shallowly embeds the pure computational content of the source:

* `clean_path` (main.py lines 20-48): URL-decoding, base-prefix removal,
  fragment/query selection, lexical path normalization, character cleanup;
* `clean_url` (lines 13-17): `urljoin(base_url, clean_path(url, base_url))`;
* `process_url` (lines 51-87): per-page processing with a `try/except` that
  absorbs every exception and returns the accumulated `internal_links`
  (which is `[]` unless the success path completed);
* the `while` loop of `crawl_website` (lines 98-131): the visited/pending
  frontier, arbitrary `set.pop` selection (modelled by an arbitrary stream of
  pick indices), the same-site `startswith` filter, and propagation of
  uncaught exceptions (e.g. from non-string link entries) to the outer
  `try/except`;
* the archive/cleanup tail of `crawl_website` (lines 133-145) as an event
  trace.

Python strings are modelled as `List Char` (wrapped in `String` at the API
boundary).  Character classes of the regexes `[^\w\s-]` and `\s` are modelled
on their ASCII fragment (Python's `re` additionally treats non-ASCII Unicode
word characters and spaces as `\w`/`\s`; no claim below depends on non-ASCII
input).  `urllib.parse.unquote` is modelled byte-wise: each valid `%XX` escape
becomes the character with code `XX` (Python additionally reassembles
multi-byte UTF-8 sequences; again no claim depends on that).
`urllib.parse.urljoin` is modelled after CPython's `urljoin`/`urlsplit` for
the second arguments that this program ever produces, namely outputs of
`clean_path`: either the empty string or a plain path token containing no
`:`, `/`, `?`, `#`, `.` or `;` characters (so the relative reference parses
as a pure, one-segment path and the params field is irrelevant).
`posixpath.normpath` is modelled in full.
-/

namespace CrawlCLI

instance {ε α : Type} [DecidableEq ε] [DecidableEq α] : DecidableEq (Except ε α) :=
  fun a b =>
    match a, b with
    | .ok x, .ok y =>
      if h : x = y then .isTrue (by rw [h]) else .isFalse (fun hh => h (Except.ok.inj hh))
    | .error x, .error y =>
      if h : x = y then .isTrue (by rw [h]) else .isFalse (fun hh => h (Except.error.inj hh))
    | .ok _, .error _ => .isFalse (fun h => Except.noConfusion h)
    | .error _, .ok _ => .isFalse (fun h => Except.noConfusion h)

/-! ## Character classes (ASCII fragments of Python's `\w`, `\s`, `str.lower`) -/

/-- ASCII fragment of Python's `\s` (regex whitespace): space, tab, newline,
carriage return, vertical tab, form feed. -/
def pyIsSpace (c : Char) : Bool :=
  c = ' ' || c = '\t' || c = '\n' || c = '\r' || c = '\x0b' || c = '\x0c'

/-- ASCII fragment of Python's `\w`: letters, digits, underscore. -/
def pyIsWordChar (c : Char) : Bool := c.isAlphanum || c = '_'

/-- A character kept by `re.sub(r"[^\w\s-]", "", ...)` (main.py lines 46, 66). -/
def pyKeepChar (c : Char) : Bool := pyIsWordChar c || pyIsSpace c || c = '-'

/-- ASCII `str.lower` on a single character. -/
def pyToLowerChar (c : Char) : Char :=
  if 'A' ≤ c ∧ c ≤ 'Z' then Char.ofNat (c.toNat + 32) else c

/-- Characters that can appear in a (non-empty) `clean_path` result:
lowercase letters, digits, underscore, hyphen. -/
def isCleanChar (c : Char) : Bool := c.isLower || c.isDigit || c = '_' || c = '-'

def isHexDigitCh (c : Char) : Bool :=
  c.isDigit || ('a' ≤ c && c ≤ 'f') || ('A' ≤ c && c ≤ 'F')

def hexValCh (c : Char) : Nat :=
  if c.isDigit then c.toNat - '0'.toNat
  else if 'a' ≤ c && c ≤ 'f' then c.toNat - 'a'.toNat + 10
  else c.toNat - 'A'.toNat + 10

/-! ## `urllib.parse.unquote` (byte-wise model) -/

/-- Python `s.split(sep)` for a one-character separator.  Always returns a
non-empty list; `"".split(sep) == [""]`. -/
def splitOnChar (sep : Char) : List Char → List (List Char)
  | [] => [[]]
  | c :: rest =>
    match splitOnChar sep rest with
    | [] => [[c]]
    | h :: t => if c = sep then [] :: h :: t else (c :: h) :: t

/-- One piece (after a `%`) of `unquote`'s scan: decode a leading pair of hex
digits, otherwise keep the `%` verbatim (CPython leaves invalid escapes
untouched). -/
def unquotePiece (piece : List Char) : List Char :=
  match piece with
  | a :: b :: rest =>
    if isHexDigitCh a && isHexDigitCh b then
      Char.ofNat (16 * hexValCh a + hexValCh b) :: rest
    else '%' :: piece
  | _ => '%' :: piece

/-- `urllib.parse.unquote`, following CPython's `unquote_to_bytes`: split on
`%` and decode the leading two hex digits of every piece after the first. -/
def pyUnquote (s : List Char) : List Char :=
  match splitOnChar '%' s with
  | [] => []
  | first :: pieces => first ++ (pieces.map unquotePiece).flatten

/-! ## `str.replace(old, "")` -/

/-- Fuelled scanner for `str.replace(pat, "")`: deletes non-overlapping
occurrences of `pat` left to right.  One unit of fuel is spent per step and
every step consumes at least one character, so fuel `s.length` is always
sufficient. -/
def replAllF (pat : List Char) : Nat → List Char → List Char
  | _, [] => []
  | 0, s => s
  | fuel + 1, c :: rest =>
    if pat.isPrefixOf (c :: rest) then replAllF pat fuel (rest.drop (pat.length - 1))
    else c :: replAllF pat fuel rest

/-- Python `s.replace(pat, "")`.  (`s.replace("", "")` is `s` in Python.) -/
def pyReplaceAll (s pat : List Char) : List Char :=
  if pat = [] then s else replAllF pat s.length s

/-! ## `posixpath.normpath` -/

/-- One step of CPython `posixpath.normpath`'s component loop. -/
def normSegStep (initSlashes : Nat) (acc : List (List Char)) (comp : List Char) :
    List (List Char) :=
  if comp = [] ∨ comp = ['.'] then acc
  else if comp ≠ ['.', '.'] ∨ (initSlashes = 0 ∧ acc = []) ∨ acc.getLast? = some ['.', '.'] then
    acc ++ [comp]
  else acc.dropLast

/-- `'/'.join(pieces)`. -/
def joinSlash : List (List Char) → List Char
  | [] => []
  | [a] => a
  | a :: rest => a ++ '/' :: joinSlash rest

/-- CPython `posixpath.normpath`. -/
def pyNormpath (p : List Char) : List Char :=
  if p = [] then ['.']
  else
    let initSlashes : Nat :=
      if p.take 2 = ['/', '/'] ∧ p.take 3 ≠ ['/', '/', '/'] then 2
      else if p.take 1 = ['/'] then 1 else 0
    let comps := splitOnChar '/' p
    let newComps := comps.foldl (normSegStep initSlashes) []
    let joined := List.replicate initSlashes '/' ++ joinSlash newComps
    if joined = [] then ['.'] else joined

/-! ## Character cleanup pipeline (main.py lines 46-48 and 66-67) -/

/-- `str.strip()` (whitespace at both ends). -/
def stripWs (p : List Char) : List Char :=
  ((p.dropWhile pyIsSpace).reverse.dropWhile pyIsSpace).reverse

/-- `re.sub(r"\s+", "_", ·)`: every maximal whitespace run becomes one `_`.
The flag records whether the scanner is inside a run that already emitted
its underscore. -/
def collapseWsGo : Bool → List Char → List Char
  | _, [] => []
  | inRun, c :: rest =>
    if pyIsSpace c then
      if inRun then collapseWsGo true rest else '_' :: collapseWsGo true rest
    else c :: collapseWsGo false rest

def collapseWs (p : List Char) : List Char := collapseWsGo false p

/-- Lines 46-48 of main.py:
`clean = re.sub(r"[^\w\s-]", "", path)`; `clean = re.sub(r"\s+", "_", clean.strip())`;
`return clean.lower()`. -/
def cleanChars (p : List Char) : List Char :=
  (collapseWs (stripWs (p.filter pyKeepChar))).map pyToLowerChar

/-- The title cleanup of `process_url` (main.py lines 66-67), identical to the
path cleanup except that lowercasing happens later, in the f-string. -/
def pyCleanTitle (t : List Char) : List Char :=
  collapseWs (stripWs (t.filter pyKeepChar))

/-! ## `clean_path` (main.py lines 20-48) -/

/-- Lines 39-48 of main.py, applied to the selected piece of the path: an
empty piece returns `""`, anything else goes through `normpath` and the
character cleanup. -/
def cleanTail (t : List Char) : List Char :=
  if t = [] then [] else cleanChars (pyNormpath t)

/-- `clean_path(url, base_url)`:
URL-decode both strings, delete every occurrence of the decoded base from the
decoded url (`str.replace`), strip leading `/`, then select
`path.split("#")[1]` if a `#` is present and `path.split("?")[0]` otherwise;
the selected piece finally goes through `cleanTail` (lines 39-48). -/
def clean_pathL (url base : List Char) : List Char :=
  let u := pyUnquote url
  let b := pyUnquote base
  let path0 := pyReplaceAll u b
  let path1 := path0.dropWhile (fun c => c = '/')
  let path2 := if '#' ∈ path1 then (splitOnChar '#' path1).getD 1 []
               else (splitOnChar '?' path1).getD 0 []
  cleanTail path2

def clean_path (url base : String) : String := ⟨clean_pathL url.data base.data⟩

/-! ## `urllib.parse.urlsplit` / `urljoin` -/

/-- A URL scheme is recognized by `urlsplit` only if non-empty, starting with
a letter and continuing with letters, digits, `+`, `-` or `.`. -/
def validScheme : List Char → Bool
  | [] => false
  | c :: rest => c.isAlpha && rest.all (fun d => d.isAlphanum || d = '+' || d = '-' || d = '.')

structure UrlParts where
  scheme : List Char
  netloc : List Char
  path : List Char
deriving Repr, DecidableEq

/-- Cut a URL at the first `#` or `?`: the query and fragment are dropped.
Every consumer below either discards them (`urljoin` with a non-empty
relative path replaces them by the — empty — query and fragment of the
relative reference) or only needs the netloc. -/
def splitCore (d : List Char) : List Char := d.takeWhile (fun c => c ≠ '#' && c ≠ '?')

/-- `urlsplit`'s scheme detection: the part before the first `:` is the
scheme if it is well-formed; `urlsplit` lowercases it.  Returns
`(scheme, remainder)`. -/
def schemeSplit (core : List Char) : List Char × List Char :=
  let pre := core.takeWhile (fun c => c ≠ ':')
  if validScheme pre && decide (pre.length < core.length) then
    (pre.map pyToLowerChar, core.drop (pre.length + 1))
  else ([], core)

/-- `urlsplit`'s netloc detection: after `//`, up to the next `/`.  Returns
`(netloc, path)`. -/
def netlocSplit (rest : List Char) : List Char × List Char :=
  if rest.take 2 = ['/', '/'] then
    ((rest.drop 2).takeWhile (fun c => c ≠ '/'), (rest.drop 2).dropWhile (fun c => c ≠ '/'))
  else ([], rest)

/-- The scheme/netloc/path fields of `urllib.parse.urlsplit`. -/
def urlsplitL (d : List Char) : UrlParts :=
  let sr := schemeSplit (splitCore d)
  let np := netlocSplit sr.2
  ⟨sr.1, np.1, np.2⟩

/-- Schemes for which `urljoin` performs relative resolution (CPython
`urllib.parse.uses_relative`). -/
def usesRelative : List (List Char) :=
  [[], "ftp".data, "http".data, "gopher".data, "nntp".data, "imap".data, "wais".data,
   "file".data, "https".data, "shttp".data, "mms".data, "prospero".data, "rtsp".data,
   "rtspu".data, "sftp".data, "svn".data, "svn+ssh".data, "ws".data, "wss".data]

/-- Schemes that carry a netloc (CPython `urllib.parse.uses_netloc`). -/
def usesNetloc : List (List Char) :=
  [[], "ftp".data, "http".data, "gopher".data, "nntp".data, "telnet".data, "imap".data,
   "wais".data, "file".data, "mms".data, "https".data, "shttp".data, "snews".data,
   "prospero".data, "rtsp".data, "rtspu".data, "rsync".data, "svn".data, "svn+ssh".data,
   "sftp".data, "nfs".data, "git".data, "git+ssh".data, "ws".data, "wss".data]

/-- One step of `urljoin`'s segment resolution (`..` pops, `.` is skipped;
popping an empty stack is a no-op, mirroring the `except IndexError: pass`). -/
def resolveSeg (acc : List (List Char)) (seg : List Char) : List (List Char) :=
  if seg = ['.', '.'] then acc.dropLast
  else if seg = ['.'] then acc
  else acc ++ [seg]

/-- `segments[1:-1] = filter(None, segments[1:-1])`: drop empty components
except in the first and last position. -/
def filterMiddle : List (List Char) → List (List Char)
  | [] => []
  | [a] => [a]
  | a :: rest => a :: ((rest.dropLast.filter (fun x => x ≠ [])) ++ [rest.getLastD []])

/-- `urljoin`'s segment list: `base_parts = bpath.split('/')` with a
non-empty last element deleted, then (for a relative path not starting with
`/`) `base_parts + rel.split('/')` with empty middle components filtered out. -/
def mergeSegments (bpath rel : List Char) : List (List Char) :=
  if rel.take 1 = ['/'] then splitOnChar '/' rel
  else
    let baseParts := splitOnChar '/' bpath
    let baseParts := if baseParts.getLastD [] = [] then baseParts else baseParts.dropLast
    filterMiddle (baseParts ++ splitOnChar '/' rel)

/-- `urljoin`'s `.`/`..` resolution loop, with the trailing empty component
appended when the last segment is `.` or `..`. -/
def resolvedPath (segments : List (List Char)) : List (List Char) :=
  let r := segments.foldl resolveSeg []
  if segments.getLastD [] = ['.'] ∨ segments.getLastD [] = ['.', '.'] then r ++ [[]]
  else r

/-- `'/'.join(resolved_path) or '/'`. -/
def joinedPath (bpath rel : List Char) : List Char :=
  let j := joinSlash (resolvedPath (mergeSegments bpath rel))
  if j = [] then ['/'] else j

/-- CPython `urljoin(base, rel)` for a relative reference `rel` that is either
empty or a plain path (no scheme, netloc, query, fragment or params) — the
only second arguments produced by this program, namely `clean_path` results.
For such `rel`, `urlparse(rel, bscheme)` yields scheme `bscheme`, empty
netloc/query/fragment and path `rel`, so the branches below are exactly
CPython's. -/
def urljoinL (base rel : List Char) : List Char :=
  if base = [] then rel
  else if rel = [] then base
  else
    let bp := urlsplitL base
    if bp.scheme ∉ usesRelative then rel
    else
      let netloc := if bp.scheme ∈ usesNetloc then bp.netloc else []
      let joined := joinedPath bp.path rel
      let out :=
        if netloc ≠ [] ∨ joined.take 2 = ['/', '/'] then
          ['/', '/'] ++ netloc ++ (if joined.take 1 = ['/'] then joined else '/' :: joined)
        else joined
      if bp.scheme = [] then out else bp.scheme ++ ':' :: out

/-- `clean_url(url, base_url)` (main.py lines 13-17):
`urljoin(base_url, clean_path(url, base_url))`. -/
def clean_url (url base : String) : String :=
  ⟨urljoinL base.data (clean_pathL url.data base.data)⟩

/-- The netloc (host[:port]) of a URL string, per `urlsplit`. -/
def hostOf (u : String) : String := ⟨(urlsplitL u.data).netloc⟩

/-- Python `s.startswith(pre)`. -/
def pyStartsWith (s pre : String) : Bool := pre.data.isPrefixOf s.data

/-! ## Python values and link entries (dynamic typing of discovered links) -/

/-- The Python values a link entry (or its `href` field) can hold: a string,
`None`, or some other non-string object (represented by a number). -/
inductive PyVal where
  | str (s : String)
  | pyNone
  | num (n : Int)
deriving Repr, DecidableEq

/-- A discovered link as produced by the fetch collaborator: either a dict
(whose `"href"` key may be absent, `link.get("href", "")` then yielding `""`)
or a bare value. -/
inductive LinkEntry where
  | dictHref (href : Option PyVal)
  | plain (v : PyVal)
deriving Repr, DecidableEq

/-- Lines 120-123 of main.py: `link.get("href", "")` for dicts, the raw value
otherwise. -/
def linkUrlOf : LinkEntry → PyVal
  | .dictHref h => h.getD (.str "")
  | .plain v => v

/-- `clean_path` applied to a raw link value.  `clean_path` starts with
`unquote(url)`, which raises a `TypeError` on every non-string argument;
there is no `try/except` inside `clean_path`/`clean_url`, so the error
propagates to the caller. -/
def clean_pathE (v : PyVal) (base : String) : Except String String :=
  match v with
  | .str s => .ok (clean_path s base)
  | .pyNone => .error "TypeError: unquote() expects str, got NoneType"
  | .num _ => .error "TypeError: unquote() expects str, got int"

/-- `clean_url` applied to a raw link value (line 125 of main.py). -/
def clean_urlE (v : PyVal) (base : String) : Except String String :=
  (clean_pathE v base).map (fun p => ⟨urljoinL base.data p.data⟩)

/-! ## `process_url` (main.py lines 51-87) -/

/-- The outcome of `await crawler.arun(...)` together with everything the
surrounding `try` block does with it:
* `raise`: an exception anywhere in the `try` body (the fetch itself, metadata
  access, the file write, ...) — `internal_links` is still `[]` there, since
  the assignment on line 84 is the final statement of the `try` block;
* `page success title? markdown links`: the fetch returned a result object;
  `title?` is the `"title"` entry of its metadata (`none` when the key is
  missing, making `metadata.get("title", "untitled")` return `"untitled"`). -/
inductive FetchOutcome where
  | raise
  | page (success : Bool) (title? : Option String) (markdown : String) (links : List LinkEntry)

/-- The filename built on lines 62-76 of main.py:
cleaned title, lowercased in the f-string, then `_` + `clean_path` suffix when
the suffix is non-empty, then the fixed `.md` extension. -/
def filenameFromMeta (title? : Option String) (url base : String) : String :=
  let title := title?.getD "untitled"
  let cleanTitle := pyCleanTitle title.data
  let pathSuffix := clean_pathL url.data base.data
  ⟨cleanTitle.map pyToLowerChar ++ (if pathSuffix = [] then [] else '_' :: pathSuffix)
    ++ ".md".data⟩

/-- The body of `process_url`'s `try` block: on success it writes one file and
returns the internal links, on `success == False` it writes nothing and
returns `[]`, and an exception is an `Except.error`. -/
def processUrlE (fetch : String → FetchOutcome) (u base : String) :
    Except String (List (String × String) × List LinkEntry) :=
  match fetch u with
  | .raise => .error "exception during single-page processing"
  | .page true title? md links => .ok ([(filenameFromMeta title? u base, md)], links)
  | .page false _ _ _ => .ok ([], [])

/-- `process_url` itself: the `except Exception` on line 85 absorbs every
error and the function returns the (then empty) `internal_links`. -/
def process_url (fetch : String → FetchOutcome) (u base : String) :
    List (String × String) × List LinkEntry :=
  match processUrlE fetch u base with
  | .ok r => r
  | .error _ => ([], [])

/-! ## The crawl loop (main.py lines 98-131) -/

/-- Python `set.add`: a no-op when the element is present. -/
def insertS (l : List String) (x : String) : List String :=
  if x ∈ l then l else x :: l

/-- The `for link in internal_links` loop (lines 119-131): each link is
reduced to its url value, passed through `clean_url`, and enqueued iff the
result is non-empty ("truthy"), starts with `base_url` and is not in
`processed_urls`.  An exception from `clean_url` (non-string link value)
aborts the whole loop: nothing catches it below `crawl_website`'s outer
`try`. -/
def enqueueLinks (base : String) (visited : List String) :
    List String → List LinkEntry → Except String (List String)
  | pending, [] => .ok pending
  | pending, l :: ls =>
    match clean_urlE (linkUrlOf l) base with
    | .error e => .error e
    | .ok cu =>
      let pending' := if cu ≠ "" ∧ pyStartsWith cu base ∧ cu ∉ visited
                      then insertS pending cu else pending
      enqueueLinks base visited pending' ls

/-- The visited (`processed_urls`) and pending (`urls_to_process`) sets. -/
structure CrawlState where
  visited : List String
  pending : List String
deriving Repr, DecidableEq

/-- The loop guard of line 102: the loop runs while `urls_to_process` is
non-empty and `len(processed_urls) < limit`. -/
def crawlDone (limit : Nat) (s : CrawlState) : Prop :=
  s.pending = [] ∨ limit ≤ s.visited.length

instance (limit : Nat) (s : CrawlState) : Decidable (crawlDone limit s) := by
  unfold crawlDone; infer_instance

/-- One iteration of the `while` loop (lines 102-131).  `pick` selects the
element `set.pop` removes (CPython's choice is unspecified, so the model
takes an arbitrary index).  When the guard fails the state is returned
unchanged.  A skipped URL (already visited, line 105) only shrinks `pending`;
otherwise the URL is processed, added to `processed_urls` (line 116, before
the link loop), and the discovered links are filtered into `pending`. -/
def crawlStep (fetch : String → FetchOutcome) (base : String) (limit : Nat)
    (pick : Nat) (s : CrawlState) : Except String CrawlState :=
  if crawlDone limit s then .ok s
  else
    let i := pick % s.pending.length
    let u := s.pending.getD i ""
    let pending' := s.pending.eraseIdx i
    if u ∈ s.visited then .ok ⟨s.visited, pending'⟩
    else
      let links := (process_url fetch u base).2
      let visited' := insertS s.visited u
      match enqueueLinks base visited' pending' links with
      | .ok p' => .ok ⟨visited', p'⟩
      | .error e => .error e

/-- `k` iterations of the loop, consuming one pick per iteration; an uncaught
exception stops the loop (it propagates to `crawl_website`'s `except`). -/
def iterE (fetch : String → FetchOutcome) (base : String) (limit : Nat)
    (picks : Nat → Nat) : Nat → CrawlState → Except String CrawlState
  | 0, s => .ok s
  | k + 1, s =>
    match crawlStep fetch base limit (picks 0) s with
    | .ok s' => iterE fetch base limit (fun n => picks (n + 1)) k s'
    | .error e => .error e

/-- The crawl's initial state (lines 98-99): `processed_urls = set()`,
`urls_to_process = set([url])`. -/
def initState (seed : String) : CrawlState := ⟨[], [seed]⟩

/-- The loop has finished or died: either the guard fails or an exception
escaped. -/
def terminalE (limit : Nat) : Except String CrawlState → Prop
  | .error _ => True
  | .ok s => crawlDone limit s

/-! ## Archive / cleanup tail of `crawl_website` (main.py lines 133-145) -/

inductive CrawlEvent where
  | printCompleted
  | makeArchive
  | printZipped
  | removeTree
  | printRemoved
  | printCrawlFailed
deriving Repr, DecidableEq

/-- The straight-line tail of `crawl_website` after the loop:
`print("Crawling completed.")`; `shutil.make_archive(...)`; `print(zipped)`;
`shutil.rmtree(output_dir)`; `print(removed)`.  All of it sits inside
`crawl_website`'s single `try`, whose handler prints `"Crawl failed: ..."`;
so a failing `make_archive` or a failing `rmtree` jumps straight to that
handler.  `makeArchive`/`removeTree` events denote *successful* completion of
the corresponding call. -/
def crawlFinishTrace (archiveOk removeOk : Bool) : List CrawlEvent :=
  if archiveOk then
    if removeOk then
      [.printCompleted, .makeArchive, .printZipped, .removeTree, .printRemoved]
    else
      [.printCompleted, .makeArchive, .printZipped, .printCrawlFailed]
  else [.printCompleted, .printCrawlFailed]

/-! ## Predicates for base-URL shapes used in the theorems -/

/-- The base URL parses as an absolute http(s)-style URL: a valid scheme from
`uses_relative` and `uses_netloc`, with a non-empty netloc.  (`main` only
starts a crawl when `urlparse` finds a scheme and a netloc.) -/
def isAbsBase (b : String) : Bool :=
  let p := urlsplitL b.data
  validScheme p.scheme && decide (p.scheme ∈ usesRelative) &&
    decide (p.scheme ∈ usesNetloc) && !p.netloc.isEmpty

/-- The base URL is exactly `scheme://host` — lowercase valid scheme from
`uses_relative`/`uses_netloc`, non-empty host without `/`, `?`, `#` or `%` —
and nothing after the host (no path, no trailing slash). -/
def hostOnlyBase (b : String) : Bool :=
  let d := b.data
  let sch := d.takeWhile (fun c => c ≠ ':')
  validScheme sch && decide (sch.map pyToLowerChar = sch) &&
    decide (sch ∈ usesRelative) && decide (sch ∈ usesNetloc) &&
    decide ((d.drop sch.length).take 3 = [':', '/', '/']) &&
    (let h := d.drop (sch.length + 3)
     !h.isEmpty && h.all (fun c => c ≠ '/' && c ≠ '?' && c ≠ '#' && c ≠ '%'))

/-- The frontier invariant of the spec's data model: `pending` has set
semantics (no duplicates) and is disjoint from `visited`. -/
def frontierInv (s : CrawlState) : Prop :=
  s.pending.Nodup ∧ ∀ x ∈ s.visited, x ∉ s.pending

/-- The full loop invariant: `|visited| ≤ limit`, `visited` duplicate-free,
and the frontier invariant. -/
def goodState (limit : Nat) (s : CrawlState) : Prop :=
  s.visited.length ≤ limit ∧ s.visited.Nodup ∧ frontierInv s

/-- The piece `clean_path` selects from the stripped path when a `#` is
present, stated independently of `str.split`: the text strictly between the
first `#` and the next `#` (or the end). -/
def fragmentPiece (p : List Char) : List Char :=
  ((p.dropWhile (fun c => c ≠ '#')).drop 1).takeWhile (fun c => c ≠ '#')

/-! # Theorems -/

/-! ## Character facts -/

theorem char_le_iff_toNat {a b : Char} : a ≤ b ↔ a.toNat ≤ b.toNat := by
  rw [Char.le_def, UInt32.le_def, BitVec.le_def]; rfl

theorem toNat_charOfNat {n : Nat} (h : n.isValidChar) : (Char.ofNat n).toNat = n := by
  rw [Char.ofNat, dif_pos h]
  simp [Char.ofNatAux, Char.toNat, UInt32.toNat]

theorem isLower_iff {c : Char} : c.isLower = true ↔ 97 ≤ c.toNat ∧ c.toNat ≤ 122 := by
  have e1 : c.isLower = (('a' : Char) ≤ c && c ≤ 'z') := rfl
  rw [e1, Bool.and_eq_true, decide_eq_true_iff, decide_eq_true_iff,
    char_le_iff_toNat, char_le_iff_toNat]
  constructor
  · intro ⟨x, y⟩
    exact ⟨le_trans (by decide) x, le_trans y (by decide)⟩
  · intro ⟨x, y⟩
    refine ⟨?_, ?_⟩
    · show ('a' : Char).toNat ≤ c.toNat
      have : ('a' : Char).toNat = 97 := by decide
      omega
    · show c.toNat ≤ ('z' : Char).toNat
      have : ('z' : Char).toNat = 122 := by decide
      omega

theorem isUpper_iff {c : Char} : ('A' ≤ c ∧ c ≤ 'Z') ↔ 65 ≤ c.toNat ∧ c.toNat ≤ 90 := by
  rw [char_le_iff_toNat, char_le_iff_toNat]
  have hA : ('A' : Char).toNat = 65 := by decide
  have hZ : ('Z' : Char).toNat = 90 := by decide
  omega

theorem isDigit_iff {c : Char} : c.isDigit = true ↔ 48 ≤ c.toNat ∧ c.toNat ≤ 57 := by
  have e1 : c.isDigit = (('0' : Char) ≤ c && c ≤ '9') := rfl
  rw [e1, Bool.and_eq_true, decide_eq_true_iff, decide_eq_true_iff,
    char_le_iff_toNat, char_le_iff_toNat]
  have h0 : ('0' : Char).toNat = 48 := by decide
  have h9 : ('9' : Char).toNat = 57 := by decide
  omega

/-- Shifting an uppercase letter by 32 gives a lowercase letter. -/
theorem upper_shift_isLower {c : Char} (h1 : 'A' ≤ c) (h2 : c ≤ 'Z') :
    (Char.ofNat (c.toNat + 32)).isLower = true := by
  have hb := isUpper_iff.mp ⟨h1, h2⟩
  have hv : (c.toNat + 32).isValidChar := Or.inl (by omega)
  rw [isLower_iff, toNat_charOfNat hv]
  omega

theorem isUpper_eq_true_iff {c : Char} : c.isUpper = true ↔ ('A' ≤ c ∧ c ≤ 'Z') := by
  have e1 : c.isUpper = (('A' : Char) ≤ c && c ≤ 'Z') := rfl
  rw [e1, Bool.and_eq_true, decide_eq_true_iff, decide_eq_true_iff]

/-- `pyToLowerChar` sends every character kept by the filter that is not
whitespace (plus the underscore produced from whitespace) to a clean
character. -/
theorem pyToLowerChar_clean {c : Char} (h : pyIsWordChar c = true ∨ c = '-' ∨ c = '_') :
    isCleanChar (pyToLowerChar c) = true := by
  unfold pyToLowerChar
  split
  · next hu => simp [isCleanChar, upper_shift_isLower hu.1 hu.2]
  · next hu =>
      rcases h with hw | hc | hc
      · rw [pyIsWordChar, Bool.or_eq_true] at hw
        rcases hw with ha | hc
        · rw [Char.isAlphanum, Bool.or_eq_true] at ha
          rcases ha with ha | hd
          · rw [Char.isAlpha, Bool.or_eq_true] at ha
            rcases ha with ha | hl
            · exact absurd (isUpper_eq_true_iff.mp ha) hu
            · simp [isCleanChar, hl]
          · simp [isCleanChar, hd]
        · have : c = '_' := of_decide_eq_true hc
          subst this; decide
      · subst hc; decide
      · subst hc; decide

theorem char_eq_iff_toNat {c d : Char} : c = d ↔ c.toNat = d.toNat :=
  ⟨congrArg _, fun h => Char.eq_of_val_eq (UInt32.toNat.inj h)⟩

theorem isCleanChar_iff {c : Char} :
    isCleanChar c = true ↔
      (97 ≤ c.toNat ∧ c.toNat ≤ 122) ∨ (48 ≤ c.toNat ∧ c.toNat ≤ 57) ∨
        c.toNat = 95 ∨ c.toNat = 45 := by
  have h1 : (c = '_') ↔ c.toNat = 95 := by
    rw [char_eq_iff_toNat]; exact Iff.rfl
  have h2 : (c = '-') ↔ c.toNat = 45 := by
    rw [char_eq_iff_toNat]; exact Iff.rfl
  rw [isCleanChar]
  simp only [Bool.or_eq_true, isLower_iff, isDigit_iff, decide_eq_true_eq, h1, h2]
  omega

theorem pyIsSpace_iff {c : Char} :
    pyIsSpace c = true ↔
      c.toNat = 32 ∨ c.toNat = 9 ∨ c.toNat = 10 ∨ c.toNat = 13 ∨
        c.toNat = 11 ∨ c.toNat = 12 := by
  rw [pyIsSpace]
  simp only [Bool.or_eq_true, decide_eq_true_eq, char_eq_iff_toNat]
  have e1 : (' ' : Char).toNat = 32 := by decide
  have e2 : ('\t' : Char).toNat = 9 := by decide
  have e3 : ('\n' : Char).toNat = 10 := by decide
  have e4 : ('\r' : Char).toNat = 13 := by decide
  have e5 : ('\x0b' : Char).toNat = 11 := by decide
  have e6 : ('\x0c' : Char).toNat = 12 := by decide
  rw [e1, e2, e3, e4, e5, e6]
  omega

theorem pyIsWordChar_iff {c : Char} :
    pyIsWordChar c = true ↔
      (65 ≤ c.toNat ∧ c.toNat ≤ 90) ∨ (97 ≤ c.toNat ∧ c.toNat ≤ 122) ∨
        (48 ≤ c.toNat ∧ c.toNat ≤ 57) ∨ c.toNat = 95 := by
  rw [pyIsWordChar, Char.isAlphanum, Char.isAlpha]
  have hu : c.isUpper = true ↔ 65 ≤ c.toNat ∧ c.toNat ≤ 90 := by
    rw [isUpper_eq_true_iff, isUpper_iff]
  simp only [Bool.or_eq_true, hu, isLower_iff, isDigit_iff, decide_eq_true_eq,
    char_eq_iff_toNat]
  have e1 : ('_' : Char).toNat = 95 := by decide
  rw [e1]
  omega

theorem pyKeepChar_iff {c : Char} :
    pyKeepChar c = true ↔
      pyIsWordChar c = true ∨ pyIsSpace c = true ∨ c.toNat = 45 := by
  rw [pyKeepChar]
  simp only [Bool.or_eq_true, decide_eq_true_eq, char_eq_iff_toNat]
  have e1 : ('-' : Char).toNat = 45 := by decide
  rw [e1]
  tauto

/-- A clean character is kept by the filter, is not whitespace, and maps to
itself under lowercasing. -/
theorem clean_basic {c : Char} (h : isCleanChar c = true) :
    pyKeepChar c = true ∧ pyIsSpace c = false ∧ pyToLowerChar c = c := by
  have hc := isCleanChar_iff.mp h
  refine ⟨?_, ?_, ?_⟩
  · rw [pyKeepChar_iff, pyIsWordChar_iff]
    omega
  · cases hs : pyIsSpace c with
    | false => rfl
    | true => exact absurd (pyIsSpace_iff.mp hs) (by omega)
  · rw [pyToLowerChar]
    split
    · next hu => exact absurd (isUpper_iff.mp hu) (by omega)
    · rfl

/-- A clean character differs from any character that is not clean
(in particular from `/`, `#`, `?`, `:`, `%`, `.`, `;`). -/
theorem clean_ne {c x : Char} (h : isCleanChar c = true) (hx : isCleanChar x = false) :
    c ≠ x := fun he => by rw [he, hx] at h; cases h

/-! ## List helpers -/

theorem takeWhile_append_all {p : Char → Bool} {l r : List Char}
    (h : ∀ c ∈ l, p c = true) : (l ++ r).takeWhile p = l ++ r.takeWhile p := by
  induction l with
  | nil => rfl
  | cons c t ih =>
      have hc : p c = true := h c (by simp)
      have ht := ih (fun x hx => h x (by simp [hx]))
      simp [List.takeWhile_cons, hc, ht]

theorem takeWhile_cons_neg {p : Char → Bool} {c : Char} {r : List Char}
    (h : p c = false) : (c :: r).takeWhile p = [] := by
  simp [List.takeWhile_cons, h]

theorem takeWhile_all {p : Char → Bool} {l : List Char}
    (h : ∀ c ∈ l, p c = true) : l.takeWhile p = l := by
  have := takeWhile_append_all (r := []) h
  simpa using this

theorem dropWhile_append_all {p : Char → Bool} {l r : List Char}
    (h : ∀ c ∈ l, p c = true) : (l ++ r).dropWhile p = r.dropWhile p := by
  induction l with
  | nil => rfl
  | cons c t ih =>
      have hc : p c = true := h c (by simp)
      have ht := ih (fun x hx => h x (by simp [hx]))
      simp [List.dropWhile_cons, hc, ht]

theorem dropWhile_cons_neg {p : Char → Bool} {c : Char} {r : List Char}
    (h : p c = false) : (c :: r).dropWhile p = c :: r := by
  simp [List.dropWhile_cons, h]

theorem dropWhile_all_false {p : Char → Bool} {l : List Char}
    (h : ∀ c ∈ l, p c = false) : l.dropWhile p = l := by
  cases l with
  | nil => rfl
  | cons c t => exact dropWhile_cons_neg (h c (by simp))

theorem dropWhile_all_true {p : Char → Bool} {l : List Char}
    (h : ∀ c ∈ l, p c = true) : l.dropWhile p = [] := by
  have := dropWhile_append_all (r := []) h
  simpa using this

theorem drop_length_append {α : Type} (l r : List α) : (l ++ r).drop l.length = r := by
  simp

theorem mem_of_mem_takeWhile {p : Char → Bool} {l : List Char} {x : Char}
    (h : x ∈ l.takeWhile p) : x ∈ l ∧ p x = true := by
  induction l with
  | nil => cases h
  | cons c t ih =>
      rw [List.takeWhile_cons] at h
      by_cases hp : p c = true
      · rw [if_pos hp] at h
        rcases List.mem_cons.mp h with he | ht
        · exact ⟨by simp [he], he ▸ hp⟩
        · exact ⟨List.mem_cons_of_mem _ (ih ht).1, (ih ht).2⟩
      · rw [if_neg hp] at h; cases h

/-! ## `isPrefixOf` facts -/

theorem isPrefixOf_append_self (pat r : List Char) :
    pat.isPrefixOf (pat ++ r) = true := by
  induction pat with
  | nil => simp [List.isPrefixOf]
  | cons c t ih => simp [List.isPrefixOf, ih]

theorem eq_append_of_isPrefixOf {pat s : List Char} (h : pat.isPrefixOf s = true) :
    s = pat ++ s.drop pat.length := by
  induction pat generalizing s with
  | nil => simp
  | cons c t ih =>
      cases s with
      | nil => cases h
      | cons d u =>
          rw [List.isPrefixOf, Bool.and_eq_true] at h
          have hd : c = d := by
            have := h.1; simpa using this
          subst hd
          simpa using ih h.2

theorem subset_of_isPrefixOf {pat s : List Char} (h : pat.isPrefixOf s = true) :
    ∀ x ∈ pat, x ∈ s := by
  intro x hx
  rw [eq_append_of_isPrefixOf h]
  exact List.mem_append_left _ hx

theorem isPrefixOf_eq_false_of_missing {pat s : List Char} {ch : Char}
    (hch : ch ∈ pat) (hs : ch ∉ s) : pat.isPrefixOf s = false := by
  cases hp : pat.isPrefixOf s with
  | false => rfl
  | true => exact absurd (subset_of_isPrefixOf hp ch hch) hs

/-! ## `splitOnChar`, `pyUnquote`, `pyReplaceAll` -/

theorem splitOnChar_no_sep {sep : Char} {l : List Char} (h : ∀ c ∈ l, c ≠ sep) :
    splitOnChar sep l = [l] := by
  induction l with
  | nil => rfl
  | cons c t ih =>
      have ht := ih (fun x hx => h x (by simp [hx]))
      have hc : c ≠ sep := h c (by simp)
      simp [splitOnChar, ht, hc]

theorem pyUnquote_no_percent {l : List Char} (h : ∀ c ∈ l, c ≠ '%') :
    pyUnquote l = l := by
  simp [pyUnquote, splitOnChar_no_sep h]

theorem replAllF_id {pat : List Char} {ch : Char} (hch : ch ∈ pat) :
    ∀ (fuel : Nat) (s : List Char), s.length ≤ fuel → ch ∉ s →
      replAllF pat fuel s = s := by
  intro fuel
  induction fuel with
  | zero =>
      intro s hs _
      cases s with
      | nil => rfl
      | cons c t => simp at hs
  | succ f ih =>
      intro s hs hns
      cases s with
      | nil => rfl
      | cons c t =>
          have hpre := isPrefixOf_eq_false_of_missing hch hns
          have ht := ih t (by simpa using Nat.le_of_succ_le_succ hs)
            (fun hx => hns (by simp [hx]))
          simp [replAllF, hpre, ht]

theorem pyReplaceAll_id {s pat : List Char}
    (h : pat = [] ∨ ∃ ch ∈ pat, ch ∉ s) : pyReplaceAll s pat = s := by
  rw [pyReplaceAll]
  rcases h with h | ⟨ch, hch, hns⟩
  · rw [if_pos h]
  · split
    · rfl
    · exact replAllF_id hch s.length s le_rfl hns

theorem pyReplaceAll_strip_lead {pat r : List Char} (hp : pat ≠ [])
    (h : ∃ ch ∈ pat, ch ∉ r) : pyReplaceAll (pat ++ r) pat = r := by
  rw [pyReplaceAll, if_neg hp]
  cases pat with
  | nil => exact absurd rfl hp
  | cons p0 pt =>
      show replAllF (p0 :: pt) ((pt ++ r).length + 1) (p0 :: (pt ++ r)) = r
      rw [replAllF, if_pos (show (p0 :: pt).isPrefixOf (p0 :: (pt ++ r)) = true from
        isPrefixOf_append_self (p0 :: pt) r)]
      rw [List.length_cons, Nat.add_sub_cancel, drop_length_append]
      rcases h with ⟨ch, hch, hr⟩
      exact replAllF_id hch _ r (by simp [List.length_append]) hr

/-! ## Cleanup pipeline facts -/

theorem filter_all_id {p : Char → Bool} {l : List Char} (h : ∀ c ∈ l, p c = true) :
    l.filter p = l := List.filter_eq_self.mpr h

theorem stripWs_id {l : List Char} (h : ∀ c ∈ l, pyIsSpace c = false) :
    stripWs l = l := by
  rw [stripWs, dropWhile_all_false h,
    dropWhile_all_false (fun c hc => h c (List.mem_reverse.mp hc)),
    List.reverse_reverse]

theorem collapseWsGo_id {fl : Bool} {l : List Char} (h : ∀ c ∈ l, pyIsSpace c = false) :
    collapseWsGo fl l = l := by
  induction l generalizing fl with
  | nil => rfl
  | cons c t ih =>
      simp [collapseWsGo, h c (by simp), ih (h := fun x hx => h x (by simp [hx]))]

theorem map_toLower_id {l : List Char} (h : ∀ c ∈ l, pyToLowerChar c = c) :
    l.map pyToLowerChar = l := by
  induction l with
  | nil => rfl
  | cons c t ih => simp [h c (by simp), ih (fun x hx => h x (by simp [hx]))]

theorem cleanChars_id_of_clean {t : List Char} (h : ∀ c ∈ t, isCleanChar c = true) :
    cleanChars t = t := by
  rw [cleanChars, collapseWs,
    filter_all_id (fun c hc => (clean_basic (h c hc)).1),
    stripWs_id (fun c hc => (clean_basic (h c hc)).2.1),
    collapseWsGo_id (fun c hc => (clean_basic (h c hc)).2.1)]
  exact map_toLower_id (fun c hc => (clean_basic (h c hc)).2.2)

theorem mem_stripWs {l : List Char} {x : Char} (h : x ∈ stripWs l) : x ∈ l := by
  rw [stripWs] at h
  have h1 := List.mem_reverse.mp h
  have h2 := (List.dropWhile_sublist (l := (l.dropWhile pyIsSpace).reverse)
    (p := pyIsSpace)).subset h1
  have h3 := List.mem_reverse.mp h2
  exact (List.dropWhile_sublist (l := l) (p := pyIsSpace)).subset h3

theorem mem_collapseWsGo {fl : Bool} {l : List Char} {x : Char}
    (h : x ∈ collapseWsGo fl l) : x = '_' ∨ (x ∈ l ∧ pyIsSpace x = false) := by
  induction l generalizing fl with
  | nil => cases h
  | cons c t ih =>
      rw [collapseWsGo] at h
      split at h
      · next hs =>
          split at h
          · rcases ih h with h1 | ⟨h2, h3⟩
            · exact Or.inl h1
            · exact Or.inr ⟨by simp [h2], h3⟩
          · rcases List.mem_cons.mp h with he | ht
            · exact Or.inl he
            · rcases ih ht with h1 | ⟨h2, h3⟩
              · exact Or.inl h1
              · exact Or.inr ⟨by simp [h2], h3⟩
      · next hs =>
          rcases List.mem_cons.mp h with he | ht
          · subst he
            exact Or.inr ⟨by simp, by simpa using hs⟩
          · rcases ih ht with h1 | ⟨h2, h3⟩
            · exact Or.inl h1
            · exact Or.inr ⟨by simp [h2], h3⟩

/-- Every character of a `cleanChars` output is clean: lowercase, digit,
underscore or hyphen. -/
theorem cleanChars_all_clean (p : List Char) :
    ∀ c ∈ cleanChars p, isCleanChar c = true := by
  intro c hc
  rw [cleanChars] at hc
  rcases List.mem_map.mp hc with ⟨d, hd, hmap⟩
  subst hmap
  apply pyToLowerChar_clean
  rcases mem_collapseWsGo (show d ∈ collapseWsGo false (stripWs (p.filter pyKeepChar))
    from hd) with h1 | ⟨h2, h3⟩
  · right; right; exact h1
  · have h4 := mem_stripWs h2
    have h5 := (List.mem_filter.mp h4).2
    rcases pyKeepChar_iff.mp h5 with hw | hs | hh
    · exact Or.inl hw
    · rw [hs] at h3; cases h3
    · right; left
      exact char_eq_iff_toNat.mpr (by rw [hh]; decide)

/-! ## `pyNormpath` on clean tokens -/

theorem pyNormpath_token_id {t : List Char} (hne : t ≠ [])
    (h : ∀ c ∈ t, isCleanChar c = true) : pyNormpath t = t := by
  have hslash : ∀ c ∈ t, c ≠ '/' := fun c hc => clean_ne (h c hc) (by decide)
  have h2 : ¬(t.take 2 = ['/', '/'] ∧ t.take 3 ≠ ['/', '/', '/']) := by
    rintro ⟨he, -⟩
    have hm : '/' ∈ t := List.take_subset 2 t (by rw [he]; simp)
    exact hslash '/' hm rfl
  have h1 : t.take 1 ≠ ['/'] := by
    intro he
    have hm : '/' ∈ t := List.take_subset 1 t (by rw [he]; simp)
    exact hslash '/' hm rfl
  have hdot : t ≠ ['.'] := by
    intro he
    have := h '.' (by rw [he]; simp)
    revert this; decide
  have hdd : t ≠ ['.', '.'] := by
    intro he
    have := h '.' (by rw [he]; simp)
    revert this; decide
  have e1 : splitOnChar '/' t = [t] := splitOnChar_no_sep hslash
  simp [pyNormpath, hne, h2, h1, e1, normSegStep, hdot, hdd, joinSlash]

/-! ## `clean_pathL` facts -/

theorem cleanTail_all_clean (t : List Char) :
    ∀ c ∈ cleanTail t, isCleanChar c = true := by
  intro c hc
  rw [cleanTail] at hc
  split at hc
  · cases hc
  · exact cleanChars_all_clean _ c hc

/-- Every character of a `clean_path` result is clean. -/
theorem clean_pathL_all_clean (u b : List Char) :
    ∀ c ∈ clean_pathL u b, isCleanChar c = true := by
  intro c hc
  simp only [clean_pathL] at hc
  exact cleanTail_all_clean _ c hc

/-- A non-empty clean token is a fixed point of `clean_path` whenever the
decoded base is empty or contains a non-clean character (true of every real
base URL, which contains `:`). -/
theorem clean_pathL_token_id {t b : List Char} (hne : t ≠ [])
    (ht : ∀ c ∈ t, isCleanChar c = true)
    (hb : pyUnquote b = [] ∨ ∃ ch ∈ pyUnquote b, isCleanChar ch = false) :
    clean_pathL t b = t := by
  have e1 : pyUnquote t = t :=
    pyUnquote_no_percent (fun c hc => clean_ne (ht c hc) (by decide))
  have e2 : pyReplaceAll t (pyUnquote b) = t := by
    apply pyReplaceAll_id
    rcases hb with h | ⟨ch, hch, hcl⟩
    · exact Or.inl h
    · refine Or.inr ⟨ch, hch, fun hmem => ?_⟩
      rw [ht ch hmem] at hcl; cases hcl
  have e3 : t.dropWhile (fun c => decide (c = '/')) = t :=
    dropWhile_all_false (fun c hc => by
      simp [clean_ne (ht c hc) (show isCleanChar '/' = false by decide)])
  have e4 : '#' ∉ t := fun hm => absurd (ht '#' hm) (by decide)
  have e5 : splitOnChar '?' t = [t] :=
    splitOnChar_no_sep (fun c hc => clean_ne (ht c hc) (by decide))
  simp only [clean_pathL, e1, e2, e3, if_neg e4, e5, List.getD_cons_zero]
  rw [cleanTail, if_neg hne, pyNormpath_token_id hne ht, cleanChars_id_of_clean ht]

theorem clean_pathL_nil (b : List Char) : clean_pathL [] b = [] := by
  have e1 : pyUnquote ([] : List Char) = [] := rfl
  have e2 : pyReplaceAll [] (pyUnquote b) = [] := by
    rw [pyReplaceAll]; split
    · rfl
    · rfl
  simp [clean_pathL, e1, e2, cleanTail, splitOnChar]

/-- `clean_path(b, b) = ""`: the base deletes itself. -/
theorem clean_pathL_self (b : List Char) : clean_pathL b b = [] := by
  have e2 : pyReplaceAll (pyUnquote b) (pyUnquote b) = [] := by
    cases hub : pyUnquote b with
    | nil => simp [pyReplaceAll]
    | cons c t =>
        have h := @pyReplaceAll_strip_lead (c :: t) []
          (by simp) ⟨c, by simp, by simp⟩
        simpa using h
  simp [clean_pathL, e2, cleanTail, splitOnChar]

/-! ## Scheme and `urlsplitL` facts -/

theorem isUpper_nat_iff {c : Char} : c.isUpper = true ↔ 65 ≤ c.toNat ∧ c.toNat ≤ 90 :=
  isUpper_eq_true_iff.trans isUpper_iff

theorem isAlphanum_nat {c : Char} (h : c.isAlphanum = true) :
    (65 ≤ c.toNat ∧ c.toNat ≤ 90) ∨ (97 ≤ c.toNat ∧ c.toNat ≤ 122) ∨
      (48 ≤ c.toNat ∧ c.toNat ≤ 57) := by
  rw [Char.isAlphanum, Bool.or_eq_true, Char.isAlpha, Bool.or_eq_true,
    isUpper_nat_iff, isLower_iff, isDigit_iff] at h
  tauto

theorem validScheme_mem {s : List Char} (h : validScheme s = true) {c : Char}
    (hc : c ∈ s) : c.isAlphanum = true ∨ c = '+' ∨ c = '-' ∨ c = '.' := by
  cases s with
  | nil => cases hc
  | cons c0 rest =>
      rw [validScheme, Bool.and_eq_true] at h
      rcases List.mem_cons.mp hc with he | ht
      · subst he
        exact Or.inl (by rw [Char.isAlphanum, h.1, Bool.true_or])
      · have h2 := List.all_eq_true.mp h.2 c ht
        simp only [Bool.or_eq_true, decide_eq_true_eq] at h2
        tauto

theorem validScheme_no_special {s : List Char} (h : validScheme s = true) {c : Char}
    (hc : c ∈ s) : c ≠ ':' ∧ c ≠ '#' ∧ c ≠ '?' ∧ c ≠ '/' ∧ c ≠ '%' := by
  have hm := validScheme_mem h hc
  have hn : (65 ≤ c.toNat ∧ c.toNat ≤ 90) ∨ (97 ≤ c.toNat ∧ c.toNat ≤ 122) ∨
      (48 ≤ c.toNat ∧ c.toNat ≤ 57) ∨ c.toNat = 43 ∨ c.toNat = 45 ∨ c.toNat = 46 := by
    rcases hm with ha | h1 | h1 | h1
    · rcases isAlphanum_nat ha with h2 | h2 | h2
      · exact Or.inl h2
      · exact Or.inr (Or.inl h2)
      · exact Or.inr (Or.inr (Or.inl h2))
    · rw [h1]; right; right; right; left; decide
    · rw [h1]; right; right; right; right; left; decide
    · rw [h1]; right; right; right; right; right; decide
  refine ⟨?_, ?_, ?_, ?_, ?_⟩ <;> (intro he; rw [he] at hn; revert hn; decide)

theorem validScheme_ne_nil {s : List Char} (h : validScheme s = true) : s ≠ [] := by
  intro he; rw [he] at h; cases h

theorem mem_splitCore {d : List Char} {c : Char} (hc : c ∈ splitCore d) :
    c ∈ d ∧ c ≠ '#' ∧ c ≠ '?' := by
  have h := mem_of_mem_takeWhile hc
  have h2 := h.2
  rw [Bool.and_eq_true, decide_eq_true_eq, decide_eq_true_eq] at h2
  exact ⟨h.1, h2⟩

theorem schemeSplit_snd_subset {core : List Char} {c : Char}
    (hc : c ∈ (schemeSplit core).2) : c ∈ core := by
  rw [schemeSplit] at hc
  split at hc
  · exact List.drop_subset _ _ hc
  · exact hc

theorem netlocSplit_fst {rest : List Char} {c : Char}
    (hc : c ∈ (netlocSplit rest).1) : c ∈ rest ∧ c ≠ '/' := by
  rw [netlocSplit] at hc
  split at hc
  · have h := mem_of_mem_takeWhile hc
    exact ⟨List.drop_subset _ _ h.1, by simpa using h.2⟩
  · cases hc

theorem netlocSplit_snd_subset {rest : List Char} {c : Char}
    (hc : c ∈ (netlocSplit rest).2) : c ∈ rest := by
  rw [netlocSplit] at hc
  split at hc
  · exact List.drop_subset _ _ ((List.dropWhile_sublist _).subset hc)
  · exact hc

/-- Every character of a `urlsplitL` netloc avoids `/`, `#`, `?`. -/
theorem urlsplitL_netloc_chars (d : List Char) :
    ∀ c ∈ (urlsplitL d).netloc, c ≠ '/' ∧ c ≠ '#' ∧ c ≠ '?' := by
  intro c hc
  have h1 := netlocSplit_fst hc
  have h2 := schemeSplit_snd_subset h1.1
  have h3 := mem_splitCore h2
  exact ⟨h1.2, h3.2⟩

/-- Every character of a `urlsplitL` path avoids `#`, `?`. -/
theorem urlsplitL_path_chars (d : List Char) :
    ∀ c ∈ (urlsplitL d).path, c ≠ '#' ∧ c ≠ '?' := by
  intro c hc
  have h1 := netlocSplit_snd_subset hc
  have h2 := schemeSplit_snd_subset h1
  exact (mem_splitCore h2).2

theorem drop_append_cons {l r : List Char} {c : Char} :
    (l ++ c :: r).drop (l.length + 1) = r := by
  rw [show l ++ c :: r = (l ++ [c]) ++ r by simp]
  rw [show l.length + 1 = (l ++ [c]).length by simp]
  exact drop_length_append _ _

/-- Parsing `sch ++ "://" ++ netl ++ rest` when `sch` is a valid scheme, the
netloc has no `/`, `#`, `?`, and `rest` is empty or starts with `/` and has
no `#`, `?`. -/
theorem urlsplitL_abs {sch netl rest : List Char}
    (hsch : validScheme sch = true)
    (hnet : ∀ c ∈ netl, c ≠ '/' ∧ c ≠ '#' ∧ c ≠ '?')
    (hrest0 : rest = [] ∨ ∃ r', rest = '/' :: r')
    (hrest : ∀ c ∈ rest, c ≠ '#' ∧ c ≠ '?') :
    urlsplitL (sch ++ ':' :: '/' :: '/' :: (netl ++ rest)) =
      ⟨sch.map pyToLowerChar, netl, rest⟩ := by
  have hall : ∀ c ∈ sch ++ ':' :: '/' :: '/' :: (netl ++ rest), c ≠ '#' ∧ c ≠ '?' := by
    intro c hc
    rcases List.mem_append.mp hc with h1 | h1
    · have h2 := validScheme_no_special hsch h1
      exact ⟨h2.2.1, h2.2.2.1⟩
    · rcases List.mem_cons.mp h1 with he | h1
      · subst he; exact ⟨by decide, by decide⟩
      · rcases List.mem_cons.mp h1 with he | h1
        · subst he; exact ⟨by decide, by decide⟩
        · rcases List.mem_cons.mp h1 with he | h1
          · subst he; exact ⟨by decide, by decide⟩
          · rcases List.mem_append.mp h1 with h2 | h2
            · have h3 := hnet c h2; exact ⟨h3.2.1, h3.2.2⟩
            · exact hrest c h2
  have hcore : splitCore (sch ++ ':' :: '/' :: '/' :: (netl ++ rest)) =
      sch ++ ':' :: '/' :: '/' :: (netl ++ rest) := by
    rw [splitCore]
    exact takeWhile_all (fun c hc => by simp [(hall c hc).1, (hall c hc).2])
  have hpre : (sch ++ ':' :: '/' :: '/' :: (netl ++ rest)).takeWhile
      (fun c => decide (c ≠ ':')) = sch := by
    rw [takeWhile_append_all (fun c hc => by
      simp [(validScheme_no_special hsch hc).1])]
    rw [takeWhile_cons_neg (by simp)]
    simp
  have hlen : sch.length < (sch ++ ':' :: '/' :: '/' :: (netl ++ rest)).length := by
    simp [List.length_append]
  have hss : schemeSplit (sch ++ ':' :: '/' :: '/' :: (netl ++ rest)) =
      (sch.map pyToLowerChar, '/' :: '/' :: (netl ++ rest)) := by
    rw [schemeSplit]
    rw [show ((sch ++ ':' :: '/' :: '/' :: (netl ++ rest)).takeWhile
      (fun c => decide (c ≠ ':'))) = sch from hpre]
    rw [if_pos (by simp [hsch, hlen])]
    rw [drop_append_cons]
  have htw : (netl ++ rest).takeWhile (fun c => decide (c ≠ '/')) = netl := by
    rw [takeWhile_append_all (fun c hc => by simp [(hnet c hc).1])]
    rcases hrest0 with he | ⟨r', he⟩
    · simp [he]
    · rw [he, takeWhile_cons_neg (by simp)]
      simp
  have hdw : (netl ++ rest).dropWhile (fun c => decide (c ≠ '/')) = rest := by
    rw [dropWhile_append_all (fun c hc => by simp [(hnet c hc).1])]
    rcases hrest0 with he | ⟨r', he⟩
    · simp [he]
    · rw [he, dropWhile_cons_neg (by simp)]
  have hns : netlocSplit ('/' :: '/' :: (netl ++ rest)) = (netl, rest) := by
    rw [netlocSplit, if_pos (by simp)]
    simp only [List.drop_succ_cons, List.drop_zero]
    rw [htw, hdw]
  rw [urlsplitL, hcore, hss, hns]

/-! ## Membership chains through `urljoinL` -/

theorem mem_splitOnChar {sep : Char} {l : List Char} :
    ∀ piece ∈ splitOnChar sep l, ∀ c ∈ piece, c ∈ l := by
  induction l with
  | nil =>
      intro piece hp c hc
      simp only [splitOnChar, List.mem_singleton] at hp
      subst hp; cases hc
  | cons a t ih =>
      intro piece hp c hc
      rw [splitOnChar] at hp
      rcases hsp : splitOnChar sep t with _ | ⟨h0, hs⟩
      · rw [hsp] at hp
        simp only [List.mem_singleton] at hp
        subst hp
        simp only [List.mem_singleton] at hc
        simp [hc]
      · rw [hsp] at hp
        have hp2 : piece ∈ (if a = sep then [] :: h0 :: hs else (a :: h0) :: hs) := hp
        clear hp
        rename' hp2 => hp
        by_cases ha : a = sep
        · rw [if_pos ha] at hp
          rcases List.mem_cons.mp hp with he | ht
          · subst he; cases hc
          · exact List.mem_cons_of_mem _ (ih piece (by rw [hsp]; exact ht) c hc)
        · rw [if_neg ha] at hp
          rcases List.mem_cons.mp hp with he | ht
          · subst he
            rcases List.mem_cons.mp hc with he2 | ht2
            · simp [he2]
            · exact List.mem_cons_of_mem _ (ih h0 (by rw [hsp]; simp) c ht2)
          · exact List.mem_cons_of_mem _
              (ih piece (by rw [hsp]; exact List.mem_cons_of_mem _ ht) c hc)

theorem mem_filterMiddle {l : List (List Char)} {piece : List Char}
    (hp : piece ∈ filterMiddle l) : piece ∈ l ∨ piece = [] := by
  match l with
  | [] => cases hp
  | [a] =>
      simp only [filterMiddle, List.mem_singleton] at hp
      exact Or.inl (by simp [hp])
  | a :: b :: t =>
      have hp2 : piece ∈ a :: (((b :: t).dropLast.filter (fun x => x ≠ [])) ++
        [(b :: t).getLastD []]) := hp
      clear hp
      rename' hp2 => hp
      rcases List.mem_cons.mp hp with he | ht
      · exact Or.inl (by simp [he])
      · rcases List.mem_append.mp ht with h1 | h1
        · have h2 := List.mem_filter.mp h1
          have h3 := (List.dropLast_sublist (b :: t)).subset h2.1
          exact Or.inl (List.mem_cons_of_mem _ h3)
        · simp only [List.mem_singleton] at h1
          subst h1
          have h4 := List.getLastD_mem_cons (b :: t) ([] : List Char)
          rcases List.mem_cons.mp h4 with he | hm
          · exact Or.inr he
          · exact Or.inl (List.mem_cons_of_mem _ hm)

theorem mem_foldl_resolveSeg {segs acc : List (List Char)} {seg : List Char}
    (h : seg ∈ List.foldl resolveSeg acc segs) : seg ∈ acc ∨ seg ∈ segs := by
  induction segs generalizing acc with
  | nil => exact Or.inl h
  | cons s t ih =>
      rw [List.foldl_cons] at h
      rcases ih h with h1 | h1
      · rw [resolveSeg] at h1
        split at h1
        · exact Or.inl ((List.dropLast_sublist acc).subset h1)
        · split at h1
          · exact Or.inl h1
          · rcases List.mem_append.mp h1 with h2 | h2
            · exact Or.inl h2
            · simp only [List.mem_singleton] at h2
              subst h2
              exact Or.inr (by simp)
      · exact Or.inr (List.mem_cons_of_mem _ h1)

theorem mem_joinSlash {pieces : List (List Char)} {c : Char}
    (h : c ∈ joinSlash pieces) : c = '/' ∨ ∃ piece ∈ pieces, c ∈ piece := by
  induction pieces with
  | nil => cases h
  | cons a t ih =>
      cases t with
      | nil => exact Or.inr ⟨a, by simp, h⟩
      | cons b u =>
          have h2 : c ∈ a ++ '/' :: joinSlash (b :: u) := h
          clear h
          rename' h2 => h
          rcases List.mem_append.mp h with h1 | h1
          · exact Or.inr ⟨a, by simp, h1⟩
          · rcases List.mem_cons.mp h1 with he | ht
            · exact Or.inl he
            · rcases ih ht with h2 | ⟨p, hp, hc⟩
              · exact Or.inl h2
              · exact Or.inr ⟨p, by simp [hp], hc⟩

/-! ## `urljoinL` on a host-only base -/

/-- `urljoin("scheme://host", tok) = "scheme://host/" + tok` for a non-empty
clean token and a lowercase http(s)-style scheme. -/
theorem urljoinL_hostOnly {sch host tok : List Char}
    (hsch : validScheme sch = true)
    (hlow : sch.map pyToLowerChar = sch)
    (hrel : sch ∈ usesRelative) (hnetl : sch ∈ usesNetloc)
    (hhost : host ≠ []) (hhostc : ∀ c ∈ host, c ≠ '/' ∧ c ≠ '#' ∧ c ≠ '?')
    (htok : tok ≠ []) (htokc : ∀ c ∈ tok, isCleanChar c = true) :
    urljoinL (sch ++ ':' :: '/' :: '/' :: host) tok =
      sch ++ ':' :: '/' :: '/' :: host ++ '/' :: tok := by
  have hbne : sch ++ ':' :: '/' :: '/' :: host ≠ [] := by simp
  have hsplit : urlsplitL (sch ++ ':' :: '/' :: '/' :: host) = ⟨sch, host, []⟩ := by
    have h := @urlsplitL_abs sch host []
      hsch hhostc (Or.inl rfl) (by intro c hc; cases hc)
    rw [show host ++ ([] : List Char) = host by simp] at h
    rw [h, hlow]
  have hd1 : tok ≠ ['.'] := fun he => absurd (htokc '.' (by rw [he]; simp)) (by decide)
  have hd2 : tok ≠ ['.', '.'] :=
    fun he => absurd (htokc '.' (by rw [he]; simp)) (by decide)
  have hsp : splitOnChar '/' tok = [tok] :=
    splitOnChar_no_sep (fun c hc => clean_ne (htokc c hc) (by decide))
  have htk1 : tok.take 1 ≠ ['/'] := by
    cases tok with
    | nil => exact absurd rfl htok
    | cons c0 t0 =>
        intro he
        simp only [List.take, List.cons.injEq] at he
        exact clean_ne (htokc c0 (by simp)) (by decide) he.1
  have e1 : filterMiddle [[], tok] = [[], tok] := by
    show ([] : List Char) :: (([tok].dropLast.filter (fun x => x ≠ [])) ++
      [[tok].getLastD []]) = [[], tok]
    simp
  have e2 : List.foldl resolveSeg [] [[], tok] = [[], tok] := by
    rw [List.foldl_cons, List.foldl_cons, List.foldl_nil]
    rw [show resolveSeg [] [] = [[]] from rfl]
    rw [resolveSeg, if_neg hd2, if_neg hd1]
    rfl
  have eseg : mergeSegments [] tok = [[], tok] := by
    rw [mergeSegments, if_neg htk1, hsp]
    rw [show splitOnChar '/' ([] : List Char) = [[]] from rfl]
    show filterMiddle ((if ([[]] : List (List Char)).getLastD [] = [] then [[]]
      else ([[]] : List (List Char)).dropLast) ++ [tok]) = [[], tok]
    rw [if_pos (show (([[]] : List (List Char)).getLastD []) = [] from rfl)]
    rw [show ([[]] : List (List Char)) ++ [tok] = [[], tok] from rfl]
    exact e1
  have eres : resolvedPath [[], tok] = [[], tok] := by
    rw [resolvedPath]
    rw [show ([[], tok] : List (List Char)).getLastD [] = tok from rfl]
    rw [if_neg (show ¬(tok = ['.'] ∨ tok = ['.', '.']) from by tauto)]
    exact e2
  have ej : joinedPath [] tok = '/' :: tok := by
    rw [joinedPath, eseg, eres]
    rw [show joinSlash [[], tok] = '/' :: tok from rfl]
    rw [if_neg (show ¬('/' :: tok = ([] : List Char)) from by simp)]
  rw [urljoinL, if_neg hbne, if_neg htok, hsplit]
  dsimp only
  rw [if_neg (not_not_intro hrel), if_pos hnetl, ej]
  rw [if_neg (validScheme_ne_nil hsch)]
  rw [if_pos (Or.inl hhost)]
  rw [if_pos (show List.take 1 ('/' :: tok) = ['/'] from rfl)]
  simp

theorem mem_mergeSegments {bpath rel piece : List Char}
    (h : piece ∈ mergeSegments bpath rel) :
    piece = [] ∨ piece ∈ splitOnChar '/' bpath ∨ piece ∈ splitOnChar '/' rel := by
  rw [mergeSegments] at h
  split at h
  · exact Or.inr (Or.inr h)
  · rcases mem_filterMiddle h with h1 | h1
    · rcases List.mem_append.mp h1 with h2 | h2
      · revert h2
        split
        · exact fun h2 => Or.inr (Or.inl h2)
        · exact fun h2 => Or.inr (Or.inl ((List.dropLast_sublist _).subset h2))
      · exact Or.inr (Or.inr h2)
    · exact Or.inl h1

theorem mem_resolvedPath {segs : List (List Char)} {piece : List Char}
    (h : piece ∈ resolvedPath segs) : piece = [] ∨ piece ∈ segs := by
  rw [resolvedPath] at h
  split at h
  · rcases List.mem_append.mp h with h1 | h1
    · rcases mem_foldl_resolveSeg h1 with h2 | h2
      · cases h2
      · exact Or.inr h2
    · simp only [List.mem_singleton] at h1
      exact Or.inl h1
  · rcases mem_foldl_resolveSeg h with h2 | h2
    · cases h2
    · exact Or.inr h2

/-- Characters of the merged path come from the base path, the relative
token, or are `/`. -/
theorem mem_joinedPath {bpath rel : List Char} {c : Char}
    (h : c ∈ joinedPath bpath rel) : c = '/' ∨ c ∈ bpath ∨ c ∈ rel := by
  rw [joinedPath] at h
  split at h
  · simp only [List.mem_singleton] at h
    exact Or.inl h
  · rcases mem_joinSlash h with h1 | ⟨p, hp, hc⟩
    · exact Or.inl h1
    · rcases mem_resolvedPath hp with he | hm
      · subst he; cases hc
      · rcases mem_mergeSegments hm with he | hs | hs
        · subst he; cases hc
        · exact Or.inr (Or.inl (mem_splitOnChar p hs c hc))
        · exact Or.inr (Or.inr (mem_splitOnChar p hs c hc))

theorem urljoinL_nil_rel {b : List Char} (hb : b ≠ []) : urljoinL b [] = b := by
  rw [urljoinL, if_neg hb, if_pos rfl]

/-- `urljoin` with an absolute base and a clean relative token preserves the
netloc: the resolved absolute form is always on the base's host. -/
theorem urljoinL_netloc_preserved {b : String} (habs : isAbsBase b = true)
    {tok : List Char} (htokc : ∀ c ∈ tok, isCleanChar c = true) :
    (urlsplitL (urljoinL b.data tok)).netloc = (urlsplitL b.data).netloc := by
  rw [isAbsBase] at habs
  simp only [Bool.and_eq_true, decide_eq_true_eq] at habs
  obtain ⟨⟨⟨hsch, hrel⟩, hnetl⟩, hne0⟩ := habs
  have hne : (urlsplitL b.data).netloc ≠ [] := by
    intro he
    rw [he] at hne0
    simp at hne0
  have hdne : b.data ≠ [] := by
    intro he
    rw [he] at hne
    exact hne rfl
  by_cases htok : tok = []
  · rw [htok, urljoinL_nil_rel hdne]
  · rw [urljoinL, if_neg hdne, if_neg htok]
    dsimp only
    rw [if_neg (not_not_intro hrel), if_pos hnetl]
    rw [if_pos (Or.inl hne)]
    rw [if_neg (validScheme_ne_nil hsch)]
    set J := joinedPath (urlsplitL b.data).path tok with hJ
    set U := (if J.take 1 = ['/'] then J else '/' :: J) with hU
    have hU0 : ∃ r', U = '/' :: r' := by
      rw [hU]
      split
      · next hcond =>
          cases hJc : J with
          | nil => rw [hJc] at hcond; cases hcond
          | cons j js =>
              rw [hJc] at hcond
              simp only [List.take, List.cons.injEq] at hcond
              exact ⟨js, by rw [hcond.1]⟩
      · exact ⟨J, rfl⟩
    have hUc : ∀ c ∈ U, c ≠ '#' ∧ c ≠ '?' := by
      intro c hc
      have hcj : c = '/' ∨ c ∈ J := by
        rw [hU] at hc
        revert hc
        split
        · exact fun hc => Or.inr hc
        · intro hc
          rcases List.mem_cons.mp hc with he | hm
          · exact Or.inl he
          · exact Or.inr hm
      rcases hcj with he | hm
      · subst he; exact ⟨by decide, by decide⟩
      · rcases mem_joinedPath (hJ ▸ hm) with he | hp | ht
        · subst he; exact ⟨by decide, by decide⟩
        · exact urlsplitL_path_chars b.data c hp
        · have hcl := htokc c ht
          exact ⟨clean_ne hcl (by decide), clean_ne hcl (by decide)⟩
    have habs2 := @urlsplitL_abs (urlsplitL b.data).scheme
      (urlsplitL b.data).netloc U hsch
      (urlsplitL_netloc_chars b.data) (Or.inr hU0) hUc
    rw [show (urlsplitL b.data).scheme ++ ':' :: (['/', '/'] ++
      (urlsplitL b.data).netloc ++ U) = (urlsplitL b.data).scheme ++
      ':' :: '/' :: '/' :: ((urlsplitL b.data).netloc ++ U) from by simp]
    rw [habs2]

/-! ## String glue and host-only bases -/

theorem string_ext {a b : String} (h : a.data = b.data) : a = b := by
  cases a; cases b; cases h; rfl

theorem takeWhile_append_drop (p : Char → Bool) (l : List Char) :
    l.takeWhile p ++ l.drop (l.takeWhile p).length = l := by
  induction l with
  | nil => rfl
  | cons c t ih =>
      rw [List.takeWhile_cons]
      split
      · simpa using ih
      · rfl

/-- Unpacking `hostOnlyBase`: the base is literally `sch ++ "://" ++ host`. -/
theorem hostOnlyBase_spec {b : String} (h : hostOnlyBase b = true) :
    ∃ sch host : List Char,
      b.data = sch ++ ':' :: '/' :: '/' :: host ∧
      validScheme sch = true ∧ sch.map pyToLowerChar = sch ∧
      sch ∈ usesRelative ∧ sch ∈ usesNetloc ∧ host ≠ [] ∧
      ∀ c ∈ host, c ≠ '/' ∧ c ≠ '?' ∧ c ≠ '#' ∧ c ≠ '%' := by
  rw [hostOnlyBase] at h
  simp only [Bool.and_eq_true, decide_eq_true_eq] at h
  obtain ⟨⟨⟨⟨⟨hv, hl⟩, hr⟩, hn⟩, h3⟩, hh⟩ := h
  set sch := b.data.takeWhile (fun c => decide (c ≠ ':')) with hsch
  refine ⟨sch, b.data.drop (sch.length + 3), ?_, hv, hl, hr, hn, ?_, ?_⟩
  · have e1 := takeWhile_append_drop (fun c => decide (c ≠ ':')) b.data
    rw [← hsch] at e1
    have e2 : b.data.drop sch.length =
        [':', '/', '/'] ++ b.data.drop (sch.length + 3) := by
      have e3 := (b.data.drop sch.length).take_append_drop 3
      rw [h3] at e3
      rw [← e3, List.drop_drop]
    conv_lhs => rw [← e1, e2]
    rfl
  · intro he
    rw [he] at hh
    simp at hh
  · intro c hc
    have h4 := hh.2
    have h5 := List.all_eq_true.mp h4 c hc
    simp only [Bool.and_eq_true, decide_eq_true_eq] at h5
    tauto

/-- `cleanTail` fixes non-empty clean tokens. -/
theorem cleanTail_token_id {t : List Char} (hne : t ≠ [])
    (h : ∀ c ∈ t, isCleanChar c = true) : cleanTail t = t := by
  rw [cleanTail, if_neg hne, pyNormpath_token_id hne h, cleanChars_id_of_clean h]

/-- On a host-only base, `clean_url` returns the base itself or
`base ++ "/" ++ tok` for the non-empty clean token `tok = clean_path(u, b)`:
every URL the crawler ever enqueues is one flat path segment under the base. -/
theorem clean_url_hostOnly {b : String} (hb : hostOnlyBase b = true) (u : String) :
    clean_url u b = b ∨
      ∃ tok : List Char, tok ≠ [] ∧ (∀ c ∈ tok, isCleanChar c = true) ∧
        (clean_url u b).data = b.data ++ '/' :: tok ∧
        clean_pathL u.data b.data = tok := by
  obtain ⟨sch, host, hd, hv, hl, hr, hn, hh, hhc⟩ := hostOnlyBase_spec hb
  have hdne : b.data ≠ [] := by rw [hd]; simp
  by_cases ht : clean_pathL u.data b.data = []
  · left
    apply string_ext
    show urljoinL b.data (clean_pathL u.data b.data) = b.data
    rw [ht, urljoinL_nil_rel hdne]
  · right
    set tok := clean_pathL u.data b.data with htokdef
    refine ⟨tok, ht, clean_pathL_all_clean _ _, ?_, rfl⟩
    show urljoinL b.data tok = b.data ++ '/' :: tok
    rw [hd]
    rw [urljoinL_hostOnly hv hl hr hn hh
      (fun c hc => ⟨(hhc c hc).1, (hhc c hc).2.2.1, (hhc c hc).2.1⟩)
      ht (clean_pathL_all_clean _ _)]

/-! ## Frontier helper lemmas -/

theorem mem_insertS {l : List String} {x y : String} (h : y ∈ insertS l x) :
    y ∈ l ∨ y = x := by
  rw [insertS] at h
  split at h
  · exact Or.inl h
  · rcases List.mem_cons.mp h with he | hm
    · exact Or.inr he
    · exact Or.inl hm

/-- `set.add` of a present element is a no-op (Python set semantics). -/
theorem insertS_of_mem {l : List String} {x : String} (h : x ∈ l) :
    insertS l x = l := by rw [insertS, if_pos h]

theorem insertS_of_not_mem {l : List String} {x : String} (h : x ∉ l) :
    insertS l x = x :: l := by rw [insertS, if_neg h]

theorem insertS_nodup {l : List String} {x : String} (h : l.Nodup) :
    (insertS l x).Nodup := by
  rw [insertS]
  split
  · exact h
  · next hx => exact List.nodup_cons.mpr ⟨hx, h⟩

theorem getD_mem : ∀ (l : List String) (i : Nat), i < l.length → l.getD i "" ∈ l := by
  intro l
  induction l with
  | nil => intro i hi; simp at hi
  | cons x t ih =>
      intro i hi
      cases i with
      | zero => simp [List.getD]
      | succ j =>
          have := ih j (by simpa using Nat.le_of_succ_le_succ hi)
          simp only [List.getD_cons_succ]
          exact List.mem_cons_of_mem _ this

theorem nodup_getD_not_mem_eraseIdx :
    ∀ (l : List String) (i : Nat), l.Nodup → i < l.length →
      l.getD i "" ∉ l.eraseIdx i := by
  intro l
  induction l with
  | nil => intro i _ hi; simp at hi
  | cons x t ih =>
      intro i hn hi
      rcases List.nodup_cons.mp hn with ⟨hx, ht⟩
      cases i with
      | zero => simpa [List.getD] using hx
      | succ j =>
          have hj : j < t.length := by simpa using Nat.le_of_succ_le_succ hi
          simp only [List.getD_cons_succ, List.eraseIdx_cons_succ, List.mem_cons]
          push_neg
          refine ⟨?_, ih j ht hj⟩
          intro he
          exact hx (he ▸ getD_mem t j hj)

/-! ## `enqueueLinks` lemmas -/

/-- Provenance of every element of the post-enqueue frontier: it was already
pending, or it is the cleaned absolute form of one of the discovered links,
non-empty ("truthy"), starts with the base URL and is not visited. -/
theorem enqueueLinks_ok_mem {base : String} {visited : List String} :
    ∀ {links : List LinkEntry} {pending pending' : List String},
      enqueueLinks base visited pending links = .ok pending' →
      ∀ x ∈ pending', x ∈ pending ∨
        (pyStartsWith x base = true ∧ x ∉ visited ∧ x ≠ "" ∧
          ∃ l ∈ links, clean_urlE (linkUrlOf l) base = .ok x) := by
  intro links
  induction links with
  | nil =>
      intro p p' h x hx
      rw [enqueueLinks] at h
      cases h
      exact Or.inl hx
  | cons l ls ih =>
      intro p p' h x hx
      rw [enqueueLinks] at h
      cases hcu : clean_urlE (linkUrlOf l) base with
      | error e =>
          rw [hcu] at h
          exact Except.noConfusion
            (show (Except.error e : Except String (List String)) = Except.ok p' from h)
      | ok cu =>
          rw [hcu] at h
          have h' : enqueueLinks base visited
              (if cu ≠ "" ∧ pyStartsWith cu base = true ∧ cu ∉ visited
               then insertS p cu else p) ls = .ok p' := h
          clear h
          rcases ih h' x hx with hmem | hdone
          · revert hmem
            split
            · next hguard =>
                intro hmem
                rcases mem_insertS hmem with h1 | h1
                · exact Or.inl h1
                · subst h1
                  exact Or.inr ⟨hguard.2.1, hguard.2.2, hguard.1, l, by simp, hcu⟩
            · exact fun hmem => Or.inl hmem
          · rcases hdone with ⟨a, b2, c2, l', hl', hcu'⟩
            exact Or.inr ⟨a, b2, c2, l', List.mem_cons_of_mem _ hl', hcu'⟩

/-- A link whose cleaned absolute form is already visited is skipped:
enqueueing it changes nothing. -/
theorem enqueueLinks_skip_visited {base : String} {visited pending : List String}
    {l : LinkEntry} {ls : List LinkEntry} {cu : String}
    (hcu : clean_urlE (linkUrlOf l) base = .ok cu) (hv : cu ∈ visited) :
    enqueueLinks base visited pending (l :: ls) =
      enqueueLinks base visited pending ls := by
  rw [enqueueLinks, hcu]
  show enqueueLinks base visited
      (if cu ≠ "" ∧ pyStartsWith cu base = true ∧ cu ∉ visited
       then insertS pending cu else pending) ls =
    enqueueLinks base visited pending ls
  rw [if_neg (fun hg => hg.2.2 hv)]

/-- `enqueueLinks` preserves the frontier invariant (no duplicates in
`pending`, `pending` disjoint from `visited`). -/
theorem enqueueLinks_inv {base : String} {visited : List String} :
    ∀ {links : List LinkEntry} {pending pending' : List String},
      enqueueLinks base visited pending links = .ok pending' →
      pending.Nodup → (∀ x ∈ visited, x ∉ pending) →
      pending'.Nodup ∧ ∀ x ∈ visited, x ∉ pending' := by
  intro links
  induction links with
  | nil =>
      intro p p' h hn hd
      rw [enqueueLinks] at h
      cases h
      exact ⟨hn, hd⟩
  | cons l ls ih =>
      intro p p' h hn hd
      rw [enqueueLinks] at h
      cases hcu : clean_urlE (linkUrlOf l) base with
      | error e =>
          rw [hcu] at h
          exact Except.noConfusion
            (show (Except.error e : Except String (List String)) = Except.ok p' from h)
      | ok cu =>
          rw [hcu] at h
          have h' : enqueueLinks base visited
              (if cu ≠ "" ∧ pyStartsWith cu base = true ∧ cu ∉ visited
               then insertS p cu else p) ls = .ok p' := h
          clear h
          revert h'
          split
          · next hguard =>
              intro h'
              refine ih h' (insertS_nodup hn) ?_
              intro x hxv hxp
              rcases mem_insertS hxp with h1 | h1
              · exact hd x hxv h1
              · subst h1
                exact hguard.2.2 hxv
          · exact fun h' => ih h' hn hd

/-! ## `crawlStep` lemmas -/

theorem not_done_spec {limit : Nat} {s : CrawlState} (hd : ¬crawlDone limit s) :
    s.pending ≠ [] ∧ s.visited.length < limit := by
  rw [crawlDone] at hd
  push_neg at hd
  exact hd

theorem crawlStep_done {fetch : String → FetchOutcome} {base : String}
    {limit pick : Nat} {s : CrawlState} (hd : crawlDone limit s) :
    crawlStep fetch base limit pick s = .ok s := by
  rw [crawlStep, if_pos hd]

theorem crawlStep_skip {fetch : String → FetchOutcome} {base : String}
    {limit pick : Nat} {s : CrawlState} (hd : ¬crawlDone limit s)
    (hu : s.pending.getD (pick % s.pending.length) "" ∈ s.visited) :
    crawlStep fetch base limit pick s =
      .ok ⟨s.visited, s.pending.eraseIdx (pick % s.pending.length)⟩ := by
  have hu' := hu
  simp only [List.getD_eq_getElem?_getD] at hu'
  simp [crawlStep, hd, hu']

theorem crawlStep_process {fetch : String → FetchOutcome} {base : String}
    {limit pick : Nat} {s : CrawlState} (hd : ¬crawlDone limit s)
    (hu : s.pending.getD (pick % s.pending.length) "" ∉ s.visited) :
    crawlStep fetch base limit pick s =
      match enqueueLinks base
          (insertS s.visited (s.pending.getD (pick % s.pending.length) ""))
          (s.pending.eraseIdx (pick % s.pending.length))
          (process_url fetch (s.pending.getD (pick % s.pending.length) "") base).2 with
      | .ok p' => .ok ⟨insertS s.visited (s.pending.getD (pick % s.pending.length) ""), p'⟩
      | .error e => .error e := by
  have hu' := hu
  simp only [List.getD_eq_getElem?_getD] at hu'
  simp [crawlStep, hd, hu']

/-- A successful loop iteration preserves the loop invariant. -/
theorem crawlStep_preserves {fetch : String → FetchOutcome} {base : String}
    {limit pick : Nat} {s s' : CrawlState}
    (h : crawlStep fetch base limit pick s = .ok s')
    (hg : goodState limit s) : goodState limit s' := by
  obtain ⟨h1, h2, h3, h4⟩ := hg
  by_cases hd : crawlDone limit s
  · rw [crawlStep_done hd] at h
    obtain rfl := Except.ok.inj h
    exact ⟨h1, h2, h3, h4⟩
  · have hlen := (not_done_spec hd).2
    have hpne := (not_done_spec hd).1
    have hi : pick % s.pending.length < s.pending.length :=
      Nat.mod_lt _ (by cases hpl : s.pending with
        | nil => exact absurd hpl hpne
        | cons a t => simp [hpl])
    by_cases hu : s.pending.getD (pick % s.pending.length) "" ∈ s.visited
    · rw [crawlStep_skip hd hu] at h
      obtain rfl := Except.ok.inj h
      refine ⟨h1, h2, ?_, ?_⟩
      · exact h3.sublist (List.eraseIdx_sublist _ _)
      · intro x hx hp
        exact h4 x hx ((List.eraseIdx_sublist _ _).subset hp)
    · rw [crawlStep_process hd hu] at h
      cases he : enqueueLinks base
          (insertS s.visited (s.pending.getD (pick % s.pending.length) ""))
          (s.pending.eraseIdx (pick % s.pending.length))
          (process_url fetch (s.pending.getD (pick % s.pending.length) "") base).2 with
      | error e =>
          rw [he] at h
          exact Except.noConfusion
            (show (Except.error e : Except String CrawlState) = Except.ok s' from h)
      | ok p' =>
          rw [he] at h
          obtain rfl := Except.ok.inj
            (show Except.ok (⟨insertS s.visited
              (s.pending.getD (pick % s.pending.length) ""), p'⟩ : CrawlState) =
              Except.ok s' from h)
          have hnodupP : (s.pending.eraseIdx (pick % s.pending.length)).Nodup :=
            h3.sublist (List.eraseIdx_sublist _ _)
          have hdisj : ∀ x ∈ insertS s.visited
              (s.pending.getD (pick % s.pending.length) ""),
              x ∉ s.pending.eraseIdx (pick % s.pending.length) := by
            intro x hx
            rcases mem_insertS hx with hxv | hxu
            · exact fun hp => h4 x hxv ((List.eraseIdx_sublist _ _).subset hp)
            · subst hxu
              exact nodup_getD_not_mem_eraseIdx s.pending _ h3 hi
          obtain ⟨hia, hib⟩ := enqueueLinks_inv he hnodupP hdisj
          refine ⟨?_, insertS_nodup h2, hia, hib⟩
          show (insertS s.visited _).length ≤ limit
          rw [insertS_of_not_mem hu]
          simp only [List.length_cons]
          omega

/-- A non-terminal successful iteration either removes one pending URL
(skip) or grows `visited` by exactly one URL. -/
theorem crawlStep_progress {fetch : String → FetchOutcome} {base : String}
    {limit pick : Nat} {s s' : CrawlState} (hd : ¬crawlDone limit s)
    (h : crawlStep fetch base limit pick s = .ok s') :
    (s'.visited = s.visited ∧ s'.pending.length < s.pending.length) ∨
      s'.visited.length = s.visited.length + 1 := by
  have hpne := (not_done_spec hd).1
  have hi : pick % s.pending.length < s.pending.length :=
    Nat.mod_lt _ (by cases hpl : s.pending with
      | nil => exact absurd hpl hpne
      | cons a t => simp [hpl])
  by_cases hu : s.pending.getD (pick % s.pending.length) "" ∈ s.visited
  · rw [crawlStep_skip hd hu] at h
    obtain rfl := Except.ok.inj h
    left
    refine ⟨rfl, ?_⟩
    rw [List.length_eraseIdx_of_lt hi]
    omega
  · rw [crawlStep_process hd hu] at h
    cases he : enqueueLinks base
        (insertS s.visited (s.pending.getD (pick % s.pending.length) ""))
        (s.pending.eraseIdx (pick % s.pending.length))
        (process_url fetch (s.pending.getD (pick % s.pending.length) "") base).2 with
    | error e =>
        rw [he] at h
        exact Except.noConfusion
          (show (Except.error e : Except String CrawlState) = Except.ok s' from h)
    | ok p' =>
        rw [he] at h
        obtain rfl := Except.ok.inj
          (show Except.ok (⟨insertS s.visited
            (s.pending.getD (pick % s.pending.length) ""), p'⟩ : CrawlState) =
            Except.ok s' from h)
        right
        show (insertS s.visited _).length = s.visited.length + 1
        rw [insertS_of_not_mem hu]
        simp

/-! ## `iterE` lemmas -/

theorem iterE_preserves {fetch : String → FetchOutcome} {base : String} {limit : Nat} :
    ∀ (k : Nat) (picks : Nat → Nat) (s s' : CrawlState),
      iterE fetch base limit picks k s = .ok s' →
      goodState limit s → goodState limit s' := by
  intro k
  induction k with
  | zero =>
      intro picks s s' h hg
      obtain rfl := Except.ok.inj (show Except.ok s = Except.ok s' from h)
      exact hg
  | succ k ih =>
      intro picks s s' h hg
      rw [iterE] at h
      cases hstep : crawlStep fetch base limit (picks 0) s with
      | error e =>
          rw [hstep] at h
          exact Except.noConfusion
            (show (Except.error e : Except String CrawlState) = Except.ok s' from h)
      | ok s1 =>
          rw [hstep] at h
          exact ih _ s1 s' h (crawlStep_preserves hstep hg)

/-- The crawl loop reaches a terminal outcome: lexicographic descent on
`(limit - |visited|, |pending|)`. -/
theorem crawl_reaches_terminal (fetch : String → FetchOutcome) (base : String)
    (limit : Nat) :
    ∀ (a : Nat), ∀ (b : Nat), ∀ (s : CrawlState),
      limit - s.visited.length ≤ a → s.pending.length ≤ b →
      ∀ (picks : Nat → Nat), ∃ k, terminalE limit (iterE fetch base limit picks k s) := by
  intro a
  induction a with
  | zero =>
      intro b s ha _ picks
      refine ⟨0, ?_⟩
      show crawlDone limit s
      rw [crawlDone]
      right
      omega
  | succ a iha =>
      intro b
      induction b with
      | zero =>
          intro s _ hb picks
          refine ⟨0, ?_⟩
          show crawlDone limit s
          rw [crawlDone]
          left
          cases hpl : s.pending with
          | nil => rfl
          | cons x t => rw [hpl] at hb; simp at hb
      | succ b ihb =>
          intro s ha hb picks
          by_cases hd : crawlDone limit s
          · exact ⟨0, hd⟩
          · cases hstep : crawlStep fetch base limit (picks 0) s with
            | error e =>
                refine ⟨1, ?_⟩
                show terminalE limit (iterE fetch base limit picks 1 s)
                rw [iterE, hstep]
                trivial
            | ok s1 =>
                rcases crawlStep_progress hd hstep with ⟨hv, hp⟩ | hv
                · obtain ⟨k, hk⟩ := ihb s1 (by rw [hv]; omega) (by omega)
                    (fun n => picks (n + 1))
                  refine ⟨k + 1, ?_⟩
                  rw [iterE, hstep]
                  exact hk
                · have hlt := (not_done_spec hd).2
                  obtain ⟨k, hk⟩ := iha s1.pending.length s1 (by omega) le_rfl
                    (fun n => picks (n + 1))
                  refine ⟨k + 1, ?_⟩
                  rw [iterE, hstep]
                  exact hk

/-! ## `str.split` selection characterizations and second-pass lemmas -/

theorem splitOnChar_ne_nil (sep : Char) (l : List Char) : splitOnChar sep l ≠ [] := by
  cases l with
  | nil => simp [splitOnChar]
  | cons c t =>
      rw [splitOnChar]
      cases splitOnChar sep t with
      | nil => simp
      | cons h ts =>
          show (if c = sep then [] :: h :: ts else (c :: h) :: ts) ≠ []
          by_cases hcs : c = sep <;> simp [hcs]

/-- `s.split(sep)[0]` is the text before the first separator. -/
theorem splitOnChar_getD0 (sep : Char) (p : List Char) :
    (splitOnChar sep p).getD 0 [] = p.takeWhile (fun c => decide (c ≠ sep)) := by
  induction p with
  | nil => rfl
  | cons c t ih =>
      rw [splitOnChar]
      cases hsp : splitOnChar sep t with
      | nil => exact absurd hsp (splitOnChar_ne_nil sep t)
      | cons h ts =>
          show ((if c = sep then [] :: h :: ts else (c :: h) :: ts).getD 0 []) =
            List.takeWhile (fun c => decide (c ≠ sep)) (c :: t)
          by_cases hc : c = sep
          · rw [if_pos hc, List.takeWhile_cons]
            simp [hc]
          · rw [if_neg hc, List.takeWhile_cons]
            have hdec : (decide (c ≠ sep)) = true := by simp [hc]
            rw [hdec, if_pos rfl]
            rw [hsp] at ih
            simp only [List.getD_cons_zero] at ih ⊢
            rw [← ih]

/-- With a separator present, `s.split('#')[1]` is the text strictly between
the first `#` and the next one (or the end). -/
theorem splitOnChar_getD1 : ∀ {p : List Char}, '#' ∈ p →
    (splitOnChar '#' p).getD 1 [] = fragmentPiece p := by
  intro p
  induction p with
  | nil => intro h; cases h
  | cons c t ih =>
      intro hm
      rw [splitOnChar]
      cases hsp : splitOnChar '#' t with
      | nil => exact absurd hsp (splitOnChar_ne_nil '#' t)
      | cons h ts =>
          show ((if c = '#' then [] :: h :: ts else (c :: h) :: ts).getD 1 []) =
            fragmentPiece (c :: t)
          by_cases hc : c = '#'
          · rw [if_pos hc]
            simp only [List.getD_cons_succ, List.getD_cons_zero]
            rw [fragmentPiece, hc]
            rw [dropWhile_cons_neg (by simp)]
            simp only [List.drop_succ_cons, List.drop_zero]
            have h0 := splitOnChar_getD0 '#' t
            rw [hsp] at h0
            simp only [List.getD_cons_zero] at h0
            exact h0
          · have hmt : '#' ∈ t := by
              rcases List.mem_cons.mp hm with he | h1
              · exact absurd he.symm hc
              · exact h1
            rw [if_neg hc]
            simp only [List.getD_cons_succ]
            have h1 := ih hmt
            rw [hsp] at h1
            simp only [List.getD_cons_succ, List.getD_cons_zero] at h1
            rw [h1, fragmentPiece, fragmentPiece,
              show List.dropWhile (fun c => decide (c ≠ '#')) (c :: t) =
                List.dropWhile (fun c => decide (c ≠ '#')) t from by
                  rw [List.dropWhile_cons, if_pos (by simp [hc])]]

/-! ## Second `clean_path` pass over `clean_url` results (host-only base) -/

theorem hostOnlyBase_no_percent {b : String} (hb : hostOnlyBase b = true) :
    ∀ c ∈ b.data, c ≠ '%' := by
  obtain ⟨sch, host, hd, hv, -, -, -, -, hhc⟩ := hostOnlyBase_spec hb
  intro c hc
  rw [hd] at hc
  rcases List.mem_append.mp hc with h1 | h1
  · exact (validScheme_no_special hv h1).2.2.2.2
  · rcases List.mem_cons.mp h1 with he | h1
    · subst he; decide
    · rcases List.mem_cons.mp h1 with he | h1
      · subst he; decide
      · rcases List.mem_cons.mp h1 with he | h1
        · subst he; decide
        · exact (hhc c h1).2.2.2

/-- A host-only base decodes to itself and contains the non-clean character
`:`. -/
theorem hostOnlyBase_unquote_bad {b : String} (hb : hostOnlyBase b = true) :
    pyUnquote b.data = b.data ∧ ∃ ch ∈ pyUnquote b.data, isCleanChar ch = false := by
  have hup : pyUnquote b.data = b.data :=
    pyUnquote_no_percent (hostOnlyBase_no_percent hb)
  refine ⟨hup, ?_⟩
  rw [hup]
  obtain ⟨sch, host, hd, -, -, -, -, -, -⟩ := hostOnlyBase_spec hb
  exact ⟨':', by rw [hd]; simp, by decide⟩

/-- `clean_path(base ++ "/" ++ tok, base) = tok` on a host-only base: the
base deletes itself, the leading `/` is stripped, and the clean token is a
fixed point of the remaining pipeline. -/
theorem clean_pathL_base_slash_tok {b : String} (hb : hostOnlyBase b = true)
    {tok : List Char} (hne : tok ≠ []) (htokc : ∀ c ∈ tok, isCleanChar c = true) :
    clean_pathL (b.data ++ '/' :: tok) b.data = tok := by
  have hnp : ∀ c ∈ b.data ++ '/' :: tok, c ≠ '%' := by
    intro c hc
    rcases List.mem_append.mp hc with h1 | h1
    · exact hostOnlyBase_no_percent hb c h1
    · rcases List.mem_cons.mp h1 with he | h1
      · subst he; decide
      · exact clean_ne (htokc c h1) (by decide)
  have e1 : pyUnquote (b.data ++ '/' :: tok) = b.data ++ '/' :: tok :=
    pyUnquote_no_percent hnp
  have e1b : pyUnquote b.data = b.data :=
    pyUnquote_no_percent (hostOnlyBase_no_percent hb)
  have e2 : pyReplaceAll (b.data ++ '/' :: tok) b.data = '/' :: tok := by
    apply pyReplaceAll_strip_lead
    · obtain ⟨sch, host, hd, hv, -, -, -, -, -⟩ := hostOnlyBase_spec hb
      rw [hd]; simp
    · refine ⟨':', ?_, ?_⟩
      · obtain ⟨sch, host, hd, -, -, -, -, -, -⟩ := hostOnlyBase_spec hb
        rw [hd]; simp
      · intro hm
        rcases List.mem_cons.mp hm with he | h1
        · cases he
        · exact absurd (htokc ':' h1) (by decide)
  have e3 : ('/' :: tok).dropWhile (fun c => decide (c = '/')) = tok := by
    rw [List.dropWhile_cons, if_pos (by simp)]
    exact dropWhile_all_false (fun c hc => by
      simp [clean_ne (htokc c hc) (show isCleanChar '/' = false by decide)])
  have e4 : '#' ∉ tok := fun hmem => absurd (htokc '#' hmem) (by decide)
  have e5 : splitOnChar '?' tok = [tok] :=
    splitOnChar_no_sep (fun c hc => clean_ne (htokc c hc) (by decide))
  simp only [clean_pathL, e1, e1b, e2, e3, if_neg e4, e5, List.getD_cons_zero]
  exact cleanTail_token_id hne htokc

/-! # Claim theorems -/

/-- Claim C1: for every fetch behaviour (cyclic link graphs included), every
base and seed URL, every page limit and every sequence of `set.pop` choices,
the crawl loop reaches a terminal outcome (guard false, or an exception
propagating to the crawl-level handler) after finitely many iterations, and
every state reachable without an exception has at most `limit` distinct URLs
in `visited`. -/
theorem crawl_terminates_and_bounded
    (fetch : String → FetchOutcome) (base seed : String) (limit : Nat)
    (picks : Nat → Nat) :
    (∃ k, terminalE limit (iterE fetch base limit picks k (initState seed))) ∧
    (∀ (k : Nat) (s' : CrawlState),
      iterE fetch base limit picks k (initState seed) = .ok s' →
      s'.visited.length ≤ limit ∧ s'.visited.Nodup) := by
  have hinit : goodState limit (initState seed) := by
    refine ⟨by simp [initState], by simp [initState], ?_, ?_⟩
    · simp [initState]
    · simp [initState]
  constructor
  · exact crawl_reaches_terminal fetch base limit limit 1 (initState seed)
      (by simp [initState]) (by simp [initState]) picks
  · intro k s' h
    have hg := iterE_preserves k picks _ s' h hinit
    exact ⟨hg.1, hg.2.1⟩

theorem crawl_terminates_and_bounded_witness :
    ∃ s' : CrawlState,
      iterE (fun _ => FetchOutcome.raise) "https://e.com" 1 (fun _ => 0) 1
          (initState "https://e.com") = .ok s' ∧
        s'.visited.length ≤ 1 ∧ s'.visited.Nodup :=
  ⟨⟨["https://e.com"], []⟩, by decide,
    (crawl_terminates_and_bounded (fun _ => FetchOutcome.raise) "https://e.com"
      "https://e.com" 1 (fun _ => 0)).2 1 ⟨["https://e.com"], []⟩ (by decide)⟩

/-- Claim C2: a fetch that reports failure (`success == False`) or raises any
exception during single-page processing is absorbed inside `process_url`: the
routine returns no written file and an empty list of internal links, and the
loop iteration that processed the URL still completes normally (`Except.ok`),
adding the URL to `visited` and continuing with the remaining pending URLs. -/
theorem process_url_failure_absorbed
    (fetch : String → FetchOutcome) (u base : String)
    (hfail : fetch u = .raise ∨ ∃ t md ls, fetch u = .page false t md ls) :
    process_url fetch u base = ([], []) ∧
    (∀ (limit pick : Nat) (s : CrawlState), ¬crawlDone limit s →
      s.pending.getD (pick % s.pending.length) "" = u → u ∉ s.visited →
      crawlStep fetch base limit pick s =
        .ok ⟨insertS s.visited u, s.pending.eraseIdx (pick % s.pending.length)⟩) := by
  have hp : process_url fetch u base = ([], []) := by
    rcases hfail with h | ⟨t, md, ls, h⟩
    · simp [process_url, processUrlE, h]
    · simp [process_url, processUrlE, h]
  refine ⟨hp, ?_⟩
  intro limit pick s hd hequ hu
  rw [crawlStep_process hd (by rw [hequ]; exact hu)]
  rw [hequ, hp]
  show (match enqueueLinks base (insertS s.visited u)
      (s.pending.eraseIdx (pick % s.pending.length)) [] with
    | Except.ok p' => Except.ok (⟨insertS s.visited u, p'⟩ : CrawlState)
    | Except.error e => Except.error e) = _
  rw [enqueueLinks]

theorem process_url_failure_absorbed_witness :
    process_url (fun _ => FetchOutcome.raise) "https://e.com/x" "https://e.com"
        = ([], []) ∧
      crawlStep (fun _ => FetchOutcome.raise) "https://e.com" 2 0
        ⟨["https://e.com"], ["https://e.com/x"]⟩ =
        .ok ⟨insertS ["https://e.com"] "https://e.com/x",
          (["https://e.com/x"] : List String).eraseIdx 0⟩ :=
  have h := process_url_failure_absorbed (fun _ => FetchOutcome.raise)
    "https://e.com/x" "https://e.com" (Or.inl rfl)
  ⟨h.1, h.2 2 0 ⟨["https://e.com"], ["https://e.com/x"]⟩ (by decide) (by decide)
    (by decide)⟩

/-- Claim C4: the frontier invariant — `pending` is duplicate-free and
disjoint from `visited` — holds in the initial state and after every
exception-free iteration; adding an already-pending URL to the pending set is
a no-op, and a link whose cleaned URL is already visited is skipped by the
enqueue loop. -/
theorem frontier_disjoint_invariant :
    (∀ seed : String, frontierInv (initState seed)) ∧
    (∀ (fetch : String → FetchOutcome) (base seed : String) (limit : Nat)
      (picks : Nat → Nat) (k : Nat) (s' : CrawlState),
      iterE fetch base limit picks k (initState seed) = .ok s' → frontierInv s') ∧
    (∀ (l : List String) (x : String), x ∈ l → insertS l x = l) ∧
    (∀ (base : String) (visited pending : List String) (l : LinkEntry)
      (ls : List LinkEntry) (cu : String),
      clean_urlE (linkUrlOf l) base = .ok cu → cu ∈ visited →
      enqueueLinks base visited pending (l :: ls) =
        enqueueLinks base visited pending ls) := by
  refine ⟨?_, ?_, ?_, ?_⟩
  · intro seed
    exact ⟨by simp [initState], by simp [initState]⟩
  · intro fetch base seed limit picks k s' h
    have hg := @iterE_preserves fetch base limit k picks _ s' h
      ⟨by simp [initState], by simp [initState],
        by simp [initState], by simp [initState]⟩
    exact hg.2.2
  · exact fun l x h => insertS_of_mem h
  · exact fun base visited pending l ls cu hcu hv =>
      enqueueLinks_skip_visited hcu hv

theorem frontier_disjoint_invariant_witness :
    insertS ["https://e.com/x"] "https://e.com/x" = ["https://e.com/x"] ∧
    frontierInv ⟨["https://e.com/x", "https://e.com"], []⟩ :=
  ⟨frontier_disjoint_invariant.2.2.1 ["https://e.com/x"] "https://e.com/x"
      (by decide),
    frontier_disjoint_invariant.2.1
      (fun _ => FetchOutcome.page true none ""
        [LinkEntry.plain (PyVal.str "https://e.com/x")])
      "https://e.com" "https://e.com" 2 (fun _ => 0) 2
      ⟨["https://e.com/x", "https://e.com"], []⟩ (by decide)⟩

/-- Claim C3: a discovered link is enqueued only if its resolved absolute
form (`clean_url` of the link) starts with the base URL — a case-sensitive
string-prefix test — and is not already visited; and for a base URL that
parses as an absolute URL, every cleaned absolute form is on the base's host,
so a link resolving to a different host is never added to `pending`. -/
theorem enqueue_same_site_filter
    (base : String) (visited pending : List String) (links : List LinkEntry)
    (pending' : List String)
    (h : enqueueLinks base visited pending links = .ok pending') :
    (∀ x ∈ pending', x ∈ pending ∨
      (pyStartsWith x base = true ∧ x ∉ visited ∧
        ∃ l ∈ links, clean_urlE (linkUrlOf l) base = .ok x)) ∧
    (isAbsBase base = true →
      ∀ x ∈ pending', x ∈ pending ∨ hostOf x = hostOf base) := by
  constructor
  · intro x hx
    rcases enqueueLinks_ok_mem h x hx with h1 | ⟨ha, hb2, _, l, hl, hcu⟩
    · exact Or.inl h1
    · exact Or.inr ⟨ha, hb2, l, hl, hcu⟩
  · intro habs x hx
    rcases enqueueLinks_ok_mem h x hx with h1 | ⟨-, -, -, l, -, hcu⟩
    · exact Or.inl h1
    · right
      cases hv : linkUrlOf l with
      | str s0 =>
          rw [hv] at hcu
          have hx2 := Except.ok.inj
            (show Except.ok (⟨urljoinL base.data (clean_pathL s0.data base.data)⟩ :
              String) = Except.ok x from hcu)
          rw [← hx2]
          show (⟨(urlsplitL (urljoinL base.data (clean_pathL s0.data base.data))).netloc⟩ :
            String) = ⟨(urlsplitL base.data).netloc⟩
          exact congrArg String.mk
            (urljoinL_netloc_preserved habs (clean_pathL_all_clean _ _))
      | pyNone =>
          rw [hv] at hcu
          exact Except.noConfusion
            (show (Except.error "TypeError: unquote() expects str, got NoneType" :
              Except String String) = Except.ok x from hcu)
      | num n =>
          rw [hv] at hcu
          exact Except.noConfusion
            (show (Except.error "TypeError: unquote() expects str, got int" :
              Except String String) = Except.ok x from hcu)

theorem enqueue_same_site_filter_witness :
    pyStartsWith "https://ex.com/a" "https://ex.com" = true ∧
    "https://ex.com/a" ∉ (["https://ex.com"] : List String) ∧
    hostOf "https://ex.com/a" = hostOf "https://ex.com" := by
  have h := enqueue_same_site_filter "https://ex.com" ["https://ex.com"] []
    [LinkEntry.plain (PyVal.str "https://ex.com/a")] ["https://ex.com/a"] (by decide)
  rcases h.1 "https://ex.com/a" (by decide) with h1 | ⟨ha, hb, -⟩
  · cases h1
  · rcases h.2 (by decide) "https://ex.com/a" (by decide) with h2 | h2
    · cases h2
    · exact ⟨ha, hb, h2⟩

/-- Claim C10: with a host-only base URL (`scheme://host`, no path, no
trailing slash), the resolved absolute form of every link is either the base
itself or `base ++ "/" ++ s` for a non-empty token `s` over
`[a-z0-9_-]` — the `/` of the original link path are deleted, not preserved —
so every URL enqueued after the seed is one flat path segment under the
base; in particular a link to `https://host/a/b` resolves to
`https://host/ab`. -/
theorem flat_path_segments (b : String) (hb : hostOnlyBase b = true) :
    (∀ u : String, clean_url u b = b ∨
      ∃ s : String, (clean_url u b).data = b.data ++ '/' :: s.data ∧ s ≠ "" ∧
        s.data.all isCleanChar = true) ∧
    (∀ (visited pending : List String) (links : List LinkEntry)
      (pending' : List String),
      enqueueLinks b visited pending links = .ok pending' →
      ∀ x ∈ pending', x ∈ pending ∨ x = b ∨
        ∃ s : String, x.data = b.data ++ '/' :: s.data ∧ s ≠ "" ∧
          s.data.all isCleanChar = true) ∧
    clean_url "https://host/a/b" "https://host" = "https://host/ab" := by
  have hmain : ∀ u : String, clean_url u b = b ∨
      ∃ s : String, (clean_url u b).data = b.data ++ '/' :: s.data ∧ s ≠ "" ∧
        s.data.all isCleanChar = true := by
    intro u
    rcases clean_url_hostOnly hb u with h1 | ⟨tok, hne, hcl, hdata, -⟩
    · exact Or.inl h1
    · right
      refine ⟨⟨tok⟩, hdata, ?_, List.all_eq_true.mpr hcl⟩
      intro he
      exact hne (congrArg String.data he)
  refine ⟨hmain, ?_, by decide⟩
  intro visited pending links pending' h x hx
  rcases enqueueLinks_ok_mem h x hx with h1 | ⟨-, -, -, l, -, hcu⟩
  · exact Or.inl h1
  · right
    cases hv : linkUrlOf l with
    | str s0 =>
        rw [hv] at hcu
        have hx2 := Except.ok.inj
          (show Except.ok (⟨urljoinL b.data (clean_pathL s0.data b.data)⟩ :
            String) = Except.ok x from hcu)
        have hx3 : x = clean_url s0 b := hx2.symm
        rw [hx3]
        exact hmain s0
    | pyNone =>
        rw [hv] at hcu
        exact Except.noConfusion
          (show (Except.error "TypeError: unquote() expects str, got NoneType" :
            Except String String) = Except.ok x from hcu)
    | num n =>
        rw [hv] at hcu
        exact Except.noConfusion
          (show (Except.error "TypeError: unquote() expects str, got int" :
            Except String String) = Except.ok x from hcu)

theorem flat_path_segments_witness :
    clean_url "https://host/a/b" "https://host" = "https://host/ab" :=
  (flat_path_segments "https://host" (by decide)).2.2


/-! ## Claim C5: fragment handling in `clean_path` -/

/-- Claim C5 (counterexample): with more than one `#` in the stripped path,
`path.split("#")[1]` keeps only the text up to the SECOND `#`, not the whole
text after the first `#`: on `"https://ex.com/a#b#c"` the code returns the
cleaning of `"b"`, while the cleaning of the full post-`#` text `"b#c"`
would be `"bc"`. -/
theorem clean_path_fragment_counterexample :
    clean_path "https://ex.com/a#b#c" "https://ex.com" = "b" ∧
    (⟨cleanTail ("b#c" : String).data⟩ : String) = "bc" ∧
    clean_path "https://ex.com/a#b#c" "https://ex.com" ≠
      ⟨cleanTail ("b#c" : String).data⟩ := by
  decide

/-- Claim C5 (amended): when the stripped path contains a `#`, `clean_path`
returns the cleaning of the text strictly between the first `#` and the next
`#` (or the end) — field 1 of `str.split("#")` — not of everything after the
first `#`; without a `#` it cleans the text before the first `?`.  The
concrete instance of the claim holds: on `"https://ex.com/a?x=1#b/c"` the
result equals the cleaning of `"b/c"`, namely `"bc"`. -/
theorem clean_path_fragment_amended (u b : String) :
    (('#' ∈ ((pyReplaceAll (pyUnquote u.data) (pyUnquote b.data)).dropWhile
        (fun c => decide (c = '/'))) →
      clean_path u b = ⟨cleanTail (fragmentPiece
        ((pyReplaceAll (pyUnquote u.data) (pyUnquote b.data)).dropWhile
          (fun c => decide (c = '/'))))⟩) ∧
     ('#' ∉ ((pyReplaceAll (pyUnquote u.data) (pyUnquote b.data)).dropWhile
        (fun c => decide (c = '/'))) →
      clean_path u b = ⟨cleanTail
        (((pyReplaceAll (pyUnquote u.data) (pyUnquote b.data)).dropWhile
          (fun c => decide (c = '/'))).takeWhile (fun c => decide (c ≠ '?')))⟩)) ∧
    clean_path "https://ex.com/a?x=1#b/c" "https://ex.com" =
      ⟨cleanTail ("b/c" : String).data⟩ ∧
    (⟨cleanTail ("b/c" : String).data⟩ : String) = "bc" := by
  refine ⟨⟨?_, ?_⟩, by decide, by decide⟩
  · intro hm
    apply string_ext
    show clean_pathL u.data b.data = cleanTail (fragmentPiece
      ((pyReplaceAll (pyUnquote u.data) (pyUnquote b.data)).dropWhile
        (fun c => decide (c = '/'))))
    simp only [clean_pathL]
    rw [if_pos hm, splitOnChar_getD1 hm]
  · intro hm
    apply string_ext
    show clean_pathL u.data b.data = cleanTail
      (((pyReplaceAll (pyUnquote u.data) (pyUnquote b.data)).dropWhile
        (fun c => decide (c = '/'))).takeWhile (fun c => decide (c ≠ '?')))
    simp only [clean_pathL]
    rw [if_neg hm, splitOnChar_getD0]

theorem clean_path_fragment_amended_witness :
    clean_path "https://ex.com/x#frag" "https://ex.com" =
      ⟨cleanTail (fragmentPiece
        ((pyReplaceAll (pyUnquote ("https://ex.com/x#frag" : String).data)
          (pyUnquote ("https://ex.com" : String).data)).dropWhile
            (fun c => decide (c = '/'))))⟩ :=
  (clean_path_fragment_amended "https://ex.com/x#frag" "https://ex.com").1.1
    (by decide)

/-! ## Claim C6: output filename -/

/-- Claim C6: the filename of a successfully fetched page is the cleaned
lowercased title, then `_` plus the canonical path suffix when that suffix is
non-empty, then the fixed `.md` extension; a missing title defaults to the
literal `"untitled"`; and title `"Hello, World!"` with url path `about_us`
under the base yields `"hello_world_about_us.md"`. -/
theorem filename_generation :
    (∀ t url base : String,
      filenameFromMeta (some t) url base =
        (⟨(pyCleanTitle t.data).map pyToLowerChar⟩ : String) ++
          (if clean_path url base = "" then "" else "_" ++ clean_path url base)
          ++ ".md") ∧
    (∀ url base : String,
      filenameFromMeta none url base = filenameFromMeta (some "untitled") url base) ∧
    filenameFromMeta (some "Hello, World!") "https://ex.com/about_us" "https://ex.com" =
      "hello_world_about_us.md" := by
  refine ⟨?_, fun url base => rfl, by decide⟩
  intro t url base
  by_cases hc : clean_path url base = ""
  · rw [if_pos hc]
    apply string_ext
    rw [String.data_append, String.data_append]
    have hc2 : clean_pathL url.data base.data = [] := congrArg String.data hc
    show (pyCleanTitle t.data).map pyToLowerChar ++
        (if clean_pathL url.data base.data = [] then []
         else '_' :: clean_pathL url.data base.data) ++ (".md" : String).data = _
    rw [if_pos hc2]
  · rw [if_neg hc]
    apply string_ext
    rw [String.data_append, String.data_append, String.data_append]
    have hc2 : ¬ clean_pathL url.data base.data = [] := fun h => hc (string_ext h)
    show (pyCleanTitle t.data).map pyToLowerChar ++
        (if clean_pathL url.data base.data = [] then []
         else '_' :: clean_pathL url.data base.data) ++ (".md" : String).data = _
    rw [if_neg hc2]
    rfl


/-! ## Claim C7: non-string link entries -/

/-- Claim C7 (counterexample): `clean_path` starts with `unquote(url)` and has
no `try/except`, so a `None` link value raises a `TypeError` instead of
returning `""`, and the exception aborts the whole link loop (nothing below
the outer handler of `crawl_website` catches it). -/
theorem link_error_counterexample :
    clean_urlE PyVal.pyNone "https://ex.com" =
      Except.error "TypeError: unquote() expects str, got NoneType" ∧
    clean_urlE PyVal.pyNone "https://ex.com" ≠ Except.ok "" ∧
    enqueueLinks "https://ex.com" ["https://ex.com"] []
      [LinkEntry.plain PyVal.pyNone] =
      Except.error "TypeError: unquote() expects str, got NoneType" := by
  decide

/-- Claim C7 (amended): a STRING link value never raises — `clean_url`
always returns normally on strings — and a link whose normalized form is the
empty string is silently dropped from the frontier; but a NON-string link
value makes `clean_url` raise, and the exception propagates out of the link
loop instead of being recovered locally. -/
theorem link_error_handling_amended (base : String) :
    (∀ s : String, clean_urlE (PyVal.str s) base = Except.ok (clean_url s base)) ∧
    (∀ (visited pending : List String) (s : String) (ls : List LinkEntry),
      clean_url s base = "" →
      enqueueLinks base visited pending (LinkEntry.plain (PyVal.str s) :: ls) =
        enqueueLinks base visited pending ls) ∧
    (∀ v : PyVal, (∀ s : String, v ≠ PyVal.str s) →
      ∃ e, clean_urlE v base = Except.error e ∧
        ∀ (visited pending : List String) (ls : List LinkEntry),
          enqueueLinks base visited pending (LinkEntry.plain v :: ls) =
            Except.error e) := by
  refine ⟨fun s => rfl, ?_, ?_⟩
  · intro visited pending s ls hz
    show enqueueLinks base visited
      (if clean_url s base ≠ "" ∧ pyStartsWith (clean_url s base) base = true ∧
          clean_url s base ∉ visited
       then insertS pending (clean_url s base) else pending) ls =
      enqueueLinks base visited pending ls
    rw [if_neg (fun hg => hg.1 hz)]
  · intro v hv
    cases v with
    | str s => exact absurd rfl (hv s)
    | pyNone =>
        exact ⟨"TypeError: unquote() expects str, got NoneType", rfl,
          fun visited pending ls => rfl⟩
    | num n =>
        exact ⟨"TypeError: unquote() expects str, got int", rfl,
          fun visited pending ls => rfl⟩

theorem link_error_handling_amended_witness :
    clean_urlE (PyVal.str "https://ex.com/a") "https://ex.com" =
      Except.ok (clean_url "https://ex.com/a" "https://ex.com") ∧
    enqueueLinks "" [] [] [LinkEntry.plain (PyVal.str "")] =
      enqueueLinks "" [] [] [] ∧
    ∃ e, clean_urlE PyVal.pyNone "https://ex.com" = Except.error e ∧
      ∀ (visited pending : List String) (ls : List LinkEntry),
        enqueueLinks "https://ex.com" visited pending
          (LinkEntry.plain PyVal.pyNone :: ls) = Except.error e :=
  ⟨(link_error_handling_amended "https://ex.com").1 "https://ex.com/a",
   (link_error_handling_amended "").2.1 [] [] "" [] (by decide),
   (link_error_handling_amended "https://ex.com").2.2 PyVal.pyNone
     (fun s h => PyVal.noConfusion h)⟩

/-! ## Claim C8: archive then remove -/

/-- Claim C8 (counterexample): when the archive succeeds but the removal
fails, the code does NOT issue a non-fatal warning — the exception from
`shutil.rmtree` reaches the one outer handler, which prints
`"Crawl failed: ..."`, the same message as for a fatal crawl error. -/
theorem archive_warning_counterexample :
    CrawlEvent.printCrawlFailed ∈ crawlFinishTrace true false ∧
    CrawlEvent.printRemoved ∉ crawlFinishTrace true false ∧
    CrawlEvent.makeArchive ∈ crawlFinishTrace true false := by
  decide

/-- Claim C8 (amended): the archive call always completes before the removal
call starts (removal only ever appears after a successful archive in the
event trace); but a removal failure after a successful archive is reported
through the generic `"Crawl failed"` handler — the archive exists, yet the
failure is not downgraded to a warning. -/
theorem archive_order_amended (aOk rOk : Bool) :
    (CrawlEvent.removeTree ∈ crawlFinishTrace aOk rOk →
      (crawlFinishTrace aOk rOk).indexOf CrawlEvent.makeArchive <
        (crawlFinishTrace aOk rOk).indexOf CrawlEvent.removeTree) ∧
    (aOk = false → CrawlEvent.removeTree ∉ crawlFinishTrace aOk rOk) ∧
    (aOk = true → rOk = false →
      CrawlEvent.makeArchive ∈ crawlFinishTrace aOk rOk ∧
      CrawlEvent.printZipped ∈ crawlFinishTrace aOk rOk ∧
      CrawlEvent.printCrawlFailed ∈ crawlFinishTrace aOk rOk ∧
      CrawlEvent.printRemoved ∉ crawlFinishTrace aOk rOk) := by
  cases aOk <;> cases rOk <;> exact (by decide)

theorem archive_order_amended_witness :
    CrawlEvent.makeArchive ∈ crawlFinishTrace true false ∧
    CrawlEvent.printZipped ∈ crawlFinishTrace true false ∧
    CrawlEvent.printCrawlFailed ∈ crawlFinishTrace true false ∧
    CrawlEvent.printRemoved ∉ crawlFinishTrace true false :=
  (archive_order_amended true false).2.2 rfl rfl


/-! ## Claim C9: idempotence of canonicalization -/

/-- Claim C9 (counterexample): neither pipeline is idempotent for every `u`
and `b`.  `clean_path` re-deletes the decoded base from its own output, so
with base `"a"` the first pass turns `"xAy"` into `"xay"` (lowercasing the
`A`) and the second pass deletes the now-matching `"a"`, giving `"xy"`.
With the realistic base `"https://ex.com/a"`, `clean_url` maps
`"https://ex.com/ab"` to `"https://ex.com/b"`, whose second pass mangles the
whole URL into the token `"httpsexcomb"` and rejoins it, giving a different
string. -/
theorem canonicalize_idempotence_counterexample :
    clean_path "xAy" "a" = "xay" ∧
    clean_path (clean_path "xAy" "a") "a" = "xy" ∧
    clean_path (clean_path "xAy" "a") "a" ≠ clean_path "xAy" "a" ∧
    clean_url "https://ex.com/ab" "https://ex.com/a" = "https://ex.com/b" ∧
    clean_url (clean_url "https://ex.com/ab" "https://ex.com/a")
      "https://ex.com/a" = "https://ex.com/httpsexcomb" ∧
    clean_url (clean_url "https://ex.com/ab" "https://ex.com/a")
      "https://ex.com/a" ≠ clean_url "https://ex.com/ab" "https://ex.com/a" := by
  decide

/-- Claim C9 (amended): `clean_path` IS idempotent whenever the decoded base
is empty or contains a character outside `[a-z0-9_-]` — true of every real
base URL, which contains `:` — because the output token then cannot contain
the base; and for a host-only base (`scheme://host`) the absolute pipeline is
stable as well: `clean_url` is idempotent and the composite
`clean_path` after `clean_url` is a fixed point of another round trip. -/
theorem canonicalize_idempotent_amended (u b : String)
    (hb : pyUnquote b.data = [] ∨
      ∃ ch ∈ pyUnquote b.data, isCleanChar ch = false) :
    clean_path (clean_path u b) b = clean_path u b ∧
    (hostOnlyBase b = true →
      clean_url (clean_url u b) b = clean_url u b ∧
      clean_path (clean_url (clean_path (clean_url u b) b) b) b =
        clean_path (clean_url u b) b) := by
  have hpart1 : ∀ w : String, clean_path (clean_path w b) b = clean_path w b := by
    intro w
    apply string_ext
    show clean_pathL (clean_pathL w.data b.data) b.data = clean_pathL w.data b.data
    by_cases hcp : clean_pathL w.data b.data = []
    · rw [hcp, clean_pathL_nil]
    · exact clean_pathL_token_id hcp (clean_pathL_all_clean _ _) hb
  refine ⟨hpart1 u, fun hhb => ?_⟩
  have hb0 : b.data ≠ [] := by
    obtain ⟨sch, host, hd, -, -, -, -, -, -⟩ := hostOnlyBase_spec hhb
    rw [hd]; simp
  have hjoin : ∀ t : List Char, t ≠ [] → (∀ c ∈ t, isCleanChar c = true) →
      urljoinL b.data t = b.data ++ '/' :: t := by
    intro t htne htc
    obtain ⟨sch, host, hd, hv, hl, hr, hn, hh, hhc⟩ := hostOnlyBase_spec hhb
    rw [hd]
    rw [urljoinL_hostOnly hv hl hr hn hh
      (fun c hc => ⟨(hhc c hc).1, (hhc c hc).2.2.1, (hhc c hc).2.1⟩) htne htc]
  rcases clean_url_hostOnly hhb u with h1 | ⟨tok, hne, hcl, hdata, hcp⟩
  · have hself : clean_url b b = b := by
      apply string_ext
      show urljoinL b.data (clean_pathL b.data b.data) = b.data
      rw [clean_pathL_self, urljoinL_nil_rel hb0]
    have hpb : clean_path b b = "" := string_ext (clean_pathL_self b.data)
    have hu0 : clean_url "" b = b := by
      apply string_ext
      show urljoinL b.data (clean_pathL [] b.data) = b.data
      rw [clean_pathL_nil, urljoinL_nil_rel hb0]
    refine ⟨by rw [h1, hself], ?_⟩
    rw [h1, hpb, hu0, hpb]
  · have hPu : clean_path (clean_url u b) b = (⟨tok⟩ : String) := by
      apply string_ext
      show clean_pathL (clean_url u b).data b.data = tok
      rw [hdata]
      exact clean_pathL_base_slash_tok hhb hne hcl
    have hcu2 : clean_url (clean_url u b) b = clean_url u b := by
      apply string_ext
      show urljoinL b.data (clean_pathL (clean_url u b).data b.data) =
        (clean_url u b).data
      rw [hdata, clean_pathL_base_slash_tok hhb hne hcl, hjoin tok hne hcl]
    refine ⟨hcu2, ?_⟩
    rw [hPu]
    have hcu3 : clean_url (⟨tok⟩ : String) b = clean_url u b := by
      apply string_ext
      show urljoinL b.data (clean_pathL tok b.data) = (clean_url u b).data
      rw [clean_pathL_token_id hne hcl hb, hjoin tok hne hcl, hdata]
    rw [hcu3]
    exact hPu

theorem canonicalize_idempotent_amended_witness :
    (pyUnquote ("https://ex.com" : String).data = [] ∨
      ∃ ch ∈ pyUnquote ("https://ex.com" : String).data, isCleanChar ch = false) ∧
    clean_path (clean_path "https://ex.com/about" "https://ex.com")
      "https://ex.com" = clean_path "https://ex.com/about" "https://ex.com" ∧
    clean_url (clean_url "https://ex.com/about" "https://ex.com")
      "https://ex.com" = clean_url "https://ex.com/about" "https://ex.com" :=
  ⟨by decide,
   (canonicalize_idempotent_amended "https://ex.com/about" "https://ex.com"
     (by decide)).1,
   ((canonicalize_idempotent_amended "https://ex.com/about" "https://ex.com"
     (by decide)).2 (by decide)).1⟩

end CrawlCLI
